import Mathlib

/-!
Verification of the translations-manager core against its specification.

The development shallowly embeds the pieces of the code base the claims
talk about:

* the key-path model over nested JSON documents (`flattenKeys`,
  `getValueByPath`, `setValueByPath`, `buildKeyTree` from the storage
  library),
* the completeness aggregator of the tree view (`calculateNodeStats`,
  `folderProgress`),
* the invite-code join endpoint (`POST /api/join`) together with the
  invite-creation normalisation of `maxUses`,
* the client-side dual-store persistence (`handleSave`) and promotion
  (`handleUploadToCloud`) flows.

Documents are modelled by a recursive value type.  Since the code runs on
JavaScript values, arrays carry, besides their elements, the string-keyed
properties JavaScript lets callers store on an array object
(`a["b"] = v`); a plain JSON array has an empty property list.  Array
holes arising from out-of-bounds index writes are modelled as `null`
(JSON serialisation turns holes into `null`).  Prototype-chain artefacts
(`toString`, `__proto__`, …) and numeric-string coercion on array-length
writes are outside the model.
-/

/-- JavaScript/JSON values as manipulated by the storage library. -/
inductive Json where
  | null : Json
  | bool (b : Bool) : Json
  | num (n : Int) : Json
  | str (s : String) : Json
  | arr (elems : List Json) (props : List (String × Json)) : Json
  | obj (entries : List (String × Json)) : Json

/-- Discriminates `typeof v === 'object'` (true for objects, arrays and
`null`). -/
def Json.typeofObject : Json → Bool
  | .null => true
  | .arr _ _ => true
  | .obj _ => true
  | _ => false

/-- Discriminates `typeof v === 'object' && v !== null` (objects and
arrays; the walk guard of `getValueByPath`). -/
def Json.objectLike : Json → Bool
  | .arr _ _ => true
  | .obj _ => true
  | _ => false

/-- Discriminates `typeof v === 'object' && v !== null && !Array.isArray(v)`
(the recursion guard of `flattenKeys`). -/
def Json.isPlainObject : Json → Bool
  | .obj _ => true
  | _ => false

/-- JavaScript truthiness of a value (used by `translations[lang] || {}`). -/
def Json.truthy : Json → Bool
  | .null => false
  | .bool b => b
  | .num n => decide (n ≠ 0)
  | .str s => decide (s ≠ "")
  | .arr _ _ => true
  | .obj _ => true

/-- First entry of an association list with the given key, if any
(JavaScript object property read). -/
def lookupEntry (es : List (String × Json)) (k : String) : Option Json :=
  match es with
  | [] => none
  | (k', v) :: rest => if k' = k then some v else lookupEntry rest k

/-- Write a key in an association list: an existing key keeps its position
(JavaScript assignment semantics), a new key is appended at the end. -/
def setEntry (es : List (String × Json)) (k : String) (v : Json) : List (String × Json) :=
  match es with
  | [] => [(k, v)]
  | (k', v') :: rest => if k' = k then (k', v) :: rest else (k', v') :: setEntry rest k v

/-- Digits of a decimal numeral, most significant first, to a number. -/
def digitsToNat (cs : List Char) : Nat :=
  cs.foldl (fun acc c => acc * 10 + (c.toNat - '0'.toNat)) 0

/-- Canonical array-index strings (`"0"`, `"17"`, … — decimal, no leading
zero), the strings JavaScript treats as array indices. -/
def isCanonIdx (s : String) : Bool :=
  match s.data with
  | [] => false
  | c :: cs => (c = '0' && cs.isEmpty) || (c.isDigit && c ≠ '0' && cs.all Char.isDigit)

/-- In-bounds list update (out of bounds: unchanged). -/
def listSetIdx (l : List Json) (i : Nat) (v : Json) : List Json :=
  match l, i with
  | [], _ => []
  | _ :: rest, 0 => v :: rest
  | x :: rest, n + 1 => x :: listSetIdx rest n v

/-- Resize an array to length `n`: truncate, or extend with `null` (the
JSON image of array holes). -/
def truncExtend (l : List Json) (n : Nat) : List Json :=
  if n ≤ l.length then l.take n else l ++ List.replicate (n - l.length) .null

/-- Property read `o[k]` on an object-like value (`none` = `undefined`).
On arrays a canonical index reads the element, `"length"` reads the
length, and any other key reads the stored properties. -/
def Json.propGet : Json → String → Option Json
  | .obj es, k => lookupEntry es k
  | .arr elems props, k =>
    if isCanonIdx k then
      match elems[digitsToNat k.data]? with
      | some e => some e
      | none => lookupEntry props k
    else if k = "length" then some (.num elems.length)
    else lookupEntry props k
  | _, _ => none

/-- Membership test `k in o` on an object-like value. -/
def Json.hasProp : Json → String → Bool
  | .obj es, k => (lookupEntry es k).isSome
  | .arr elems props, k =>
    (isCanonIdx k && decide (digitsToNat k.data < elems.length)) || k = "length" ||
      (lookupEntry props k).isSome
  | _, _ => false

/-- Property write `o[k] = v` on an object-like value; `none` models the
exceptions JavaScript raises there (write on `null`, invalid
array-length assignment). -/
def Json.propSet : Json → String → Json → Option Json
  | .obj es, k, v => some (.obj (setEntry es k v))
  | .arr elems props, k, v =>
    if isCanonIdx k then
      let i := digitsToNat k.data
      if i < elems.length then some (.arr (listSetIdx elems i v) props)
      else some (.arr (elems ++ List.replicate (i - elems.length) .null ++ [v]) props)
    else if k = "length" then
      match v with
      | .num n => if 0 ≤ n then some (.arr (truncExtend elems n.toNat) props) else none
      | _ => none
    else some (.arr elems (setEntry props k v))
  | _, _, _ => none

/-- Splitting a character list at `'.'` (accumulator holds the current
fragment reversed); mirrors JavaScript `String.prototype.split('.')`. -/
def splitDotChars : List Char → List Char → List String
  | [], acc => [String.mk acc.reverse]
  | c :: cs, acc =>
    if c = '.' then String.mk acc.reverse :: splitDotChars cs []
    else splitDotChars cs (c :: acc)

/-- The dot-separated fragments of a path, exactly as `path.split('.')`
computes them (`"" ↦ [""]`, `"a..b" ↦ ["a", "", "b"]`). -/
def splitDot (s : String) : List String :=
  splitDotChars s.data []

/-- Path extension used throughout `flattenKeys` and `buildKeyTree`:
`prefix ? prefix + "." + key : key` (the empty string is falsy). -/
def joinKey (pre k : String) : String :=
  if pre = "" then k else pre ++ "." ++ k

/-- A string containing no `'.'` character. -/
def dotFree (s : String) : Bool :=
  s.data.all (fun c => c ≠ '.')

/-- `flattenKeys` of the storage library: depth-first list of the dotted
paths of all leaves reachable through nested plain objects; arrays and
scalars terminate a path. -/
def flattenKeys : List (String × Json) → String → List String
  | [], _ => []
  | (k, v) :: rest, pre =>
    let fullKey := joinKey pre k
    (match v with
     | .obj es => flattenKeys es fullKey
     | _ => [fullKey]) ++ flattenKeys rest pre
termination_by l _ => sizeOf l
decreasing_by all_goals (simp_wf; try omega)

mutual

/-- The deep copy `JSON.parse(JSON.stringify(obj))` that `setValueByPath`
performs on its input: the identity on JSON data, except that the
string-keyed properties of array objects are dropped by serialisation. -/
def jsonClone : Json → Json
  | .null => .null
  | .bool b => .bool b
  | .num n => .num n
  | .str s => .str s
  | .arr elems _ => .arr (jsonCloneList elems) []
  | .obj es => .obj (jsonCloneEntries es)
termination_by j => sizeOf j
decreasing_by all_goals (simp_wf; try omega)

/-- Clone of each element of an array. -/
def jsonCloneList : List Json → List Json
  | [] => []
  | v :: rest => jsonClone v :: jsonCloneList rest
termination_by l => sizeOf l
decreasing_by all_goals (simp_wf; try omega)

/-- Clone of each entry of an object. -/
def jsonCloneEntries : List (String × Json) → List (String × Json)
  | [] => []
  | (k, v) :: rest => (k, jsonClone v) :: jsonCloneEntries rest
termination_by l => sizeOf l
decreasing_by all_goals (simp_wf; try omega)

end

/-- The segment walk of `getValueByPath`: at each step the current value
must be object-like (`null`, `undefined` and primitives stop the walk
with `undefined`), then the segment is read off it. -/
def getParts : Json → List String → Option Json
  | cur, [] => some cur
  | cur, p :: rest =>
    if cur.objectLike then
      match cur.propGet p with
      | some v => getParts v rest
      | none => none
    else none

/-- `getValueByPath(obj, path)` of the storage library. -/
def getValueByPath (es : List (String × Json)) (path : String) : Option Json :=
  getParts (.obj es) (splitDot path)

/-- The segment walk of `setValueByPath` (after the deep copy): for every
segment but the last, a missing slot or a slot whose value fails
`typeof === 'object'` is replaced by a fresh `{}` before descending —
`null` and arrays pass that test and are descended into as they are; the
last segment is written.  `none` models a thrown `TypeError`/`RangeError`. -/
def setParts : Json → List String → Json → Option Json
  | cur, [], _ => some cur
  | cur, [last], v => cur.propSet last v
  | cur, p :: rest, v =>
    if cur.objectLike then
      let child :=
        match cur.propGet p with
        | some u => if u.typeofObject && cur.hasProp p then u else .obj []
        | none => .obj []
      match setParts child rest v with
      | none => none
      | some child' => cur.propSet p child'
    else none
termination_by _ l _ => l.length
decreasing_by all_goals (simp_wf; try omega)

/-- `setValueByPath(obj, path, value)`: deep-copies the input, then walks
and writes.  `none` models the exception paths of the original. -/
def setValueByPath (es : List (String × Json)) (path : String) (v : Json) :
    Option (List (String × Json)) :=
  match setParts (jsonClone (.obj es)) (splitDot path) v with
  | some (.obj r) => some r
  | _ => none

/-- A node of the key tree built by `buildKeyTree`. -/
structure KeyNode where
  name : String
  path : String
  isLeaf : Bool
  children : List KeyNode

/-- First node of a level carrying the given name
(`currentLevel.find(n => n.name === part)`). -/
def findNode (level : List KeyNode) (p : String) : Option KeyNode :=
  match level with
  | [] => none
  | n :: rest => if n.name = p then some n else findNode rest p

/-- Replace the first node of a level carrying the given name by the image
of `f` (the in-place mutation of the found node). -/
def replaceFirst (level : List KeyNode) (p : String) (f : KeyNode → KeyNode) : List KeyNode :=
  match level with
  | [] => []
  | n :: rest => if n.name = p then f n :: rest else n :: replaceFirst rest p f

/-- Insertion of one split key into a level of the tree, mirroring the
inner loop of `buildKeyTree`: walk the parts, reusing an existing sibling
of the same name (without touching its `isLeaf` flag) or pushing a fresh
node (a leaf exactly at the last part), and descend. -/
def insertPath (level : List KeyNode) (parts : List String) (pre : String) : List KeyNode :=
  match parts with
  | [] => level
  | p :: rest =>
    let path := joinKey pre p
    match findNode level p with
    | some _ =>
      if rest.isEmpty then level
      else replaceFirst level p (fun n => { n with children := insertPath n.children rest path })
    | none =>
      if rest.isEmpty then level ++ [⟨p, path, true, []⟩]
      else level ++ [⟨p, path, false, insertPath [] rest path⟩]
termination_by parts.length
decreasing_by all_goals (simp_wf; try omega)

/-- `buildKeyTree(keys)` of the storage library: fold the split keys into
a forest, grouping by shared prefixes in first-occurrence order. -/
def buildKeyTree (keys : List String) : List KeyNode :=
  keys.foldl (fun forest key => insertPath forest (splitDot key) "") []

/-- Leaf paths of a forest, in depth-first order (children of a node
marked as a leaf are not visited, matching every traversal in the code). -/
def leafPaths : List KeyNode → List String
  | [] => []
  | ⟨_, path, isLeaf, children⟩ :: rest =>
    (if isLeaf then [path] else leafPaths children) ++ leafPaths rest
termination_by forest => sizeOf forest
decreasing_by all_goals (simp_wf; try omega)

/-- Stats record accumulated by `calculateNodeStats`. -/
structure NodeStats where
  totalKeys : Nat
  translatedKeys : Nat
  partialKeys : Nat
  missingKeys : Nat
deriving DecidableEq, Repr

instance : Add NodeStats :=
  ⟨fun a b => ⟨a.totalKeys + b.totalKeys, a.translatedKeys + b.translatedKeys,
    a.partialKeys + b.partialKeys, a.missingKeys + b.missingKeys⟩⟩

/-- A leaf path counts as translated for a language iff
`getValueByPath(translations[lang] || {}, path)` is neither `undefined`
nor `null` nor the empty string. -/
def translatedFor (translations : List (String × Json)) (lang : String) (path : String) : Bool :=
  let doc :=
    match lookupEntry translations lang with
    | some v => if v.truthy then v else .obj []
    | none => .obj []
  match getParts doc (splitDot path) with
  | none => false
  | some .null => false
  | some (.str s) => decide (s ≠ "")
  | some _ => true

mutual

/-- `calculateNodeStats` of the tree view: every descendant leaf bumps
`totalKeys`; when the target-language list is empty the leaf is left
unclassified, otherwise it is complete / partly / missing according to
how many languages carry a translation.  Children of a node whose
`isLeaf` flag is set are not traversed. -/
def calculateNodeStats (n : KeyNode) (translations : List (String × Json))
    (targetLanguages : List String) : NodeStats :=
  match n with
  | ⟨_, path, isLeaf, children⟩ =>
    if isLeaf then
      if targetLanguages.isEmpty then ⟨1, 0, 0, 0⟩
      else
        let t := (targetLanguages.filter (fun lang => translatedFor translations lang path)).length
        if t = targetLanguages.length then ⟨1, 1, 0, 0⟩
        else if 0 < t then ⟨1, 0, 1, 0⟩
        else ⟨1, 0, 0, 1⟩
    else calcChildrenStats children translations targetLanguages
termination_by sizeOf n
decreasing_by all_goals (simp_wf; try omega)

/-- Stats accumulated over a list of sibling nodes (the code folds the
same sum left to right; `NodeStats` addition is associative and
commutative, so the grouping is immaterial). -/
def calcChildrenStats (cs : List KeyNode) (translations : List (String × Json))
    (targetLanguages : List String) : NodeStats :=
  match cs with
  | [] => ⟨0, 0, 0, 0⟩
  | c :: rest =>
    calculateNodeStats c translations targetLanguages +
      calcChildrenStats rest translations targetLanguages
termination_by sizeOf cs
decreasing_by all_goals (simp_wf; try omega)

end

/-- `Math.round(x)` for a non-negative rational `num / den` (`den > 0`):
round half away from zero. -/
def jsRound (num den : Nat) : Nat :=
  (2 * num + den) / (2 * den)

/-- `folderProgress` of the tree view: `0` for leaves, empty folders and
an empty language list, else `Math.round(translatedKeys / totalKeys * 100)`. -/
def folderProgress (n : KeyNode) (translations : List (String × Json))
    (targetLanguages : List String) : Nat :=
  let stats := calculateNodeStats n translations targetLanguages
  if n.isLeaf || stats.totalKeys = 0 || targetLanguages.isEmpty then 0
  else jsRound (stats.translatedKeys * 100) stats.totalKeys

mutual

/-- Leaves of a node in depth-first order (a node flagged as leaf is its
own single leaf; the aggregator never visits children of such a node). -/
def nodeLeaves (n : KeyNode) : List KeyNode :=
  match n with
  | ⟨name, path, isLeaf, children⟩ =>
    if isLeaf then [⟨name, path, isLeaf, children⟩] else nodeLeavesList children
termination_by sizeOf n
decreasing_by all_goals (simp_wf; try omega)

/-- Leaves of a list of sibling nodes, in order. -/
def nodeLeavesList (cs : List KeyNode) : List KeyNode :=
  match cs with
  | [] => []
  | c :: rest => nodeLeaves c ++ nodeLeavesList rest
termination_by sizeOf cs
decreasing_by all_goals (simp_wf; try omega)

end

/-- Stats of a node as the specification words them: a leaf is complete
iff translated for all languages of a non-empty list, partial iff
translated for at least one but not all, missing iff translated for
none; a folder aggregates its descendant leaves. -/
def statsOfLeaves (ls : List KeyNode) (translations : List (String × Json))
    (targetLanguages : List String) : NodeStats :=
  let tcount := fun (l : KeyNode) =>
    (targetLanguages.filter (fun lang => translatedFor translations lang l.path)).length
  { totalKeys := ls.length
    translatedKeys :=
      (ls.filter (fun l =>
        !targetLanguages.isEmpty && decide (tcount l = targetLanguages.length))).length
    partialKeys :=
      (ls.filter (fun l =>
        decide (0 < tcount l) && decide (tcount l < targetLanguages.length))).length
    missingKeys := (ls.filter (fun l => decide (tcount l = 0))).length }

def specNodeStats (n : KeyNode) (translations : List (String × Json))
    (targetLanguages : List String) : NodeStats :=
  statsOfLeaves (nodeLeaves n) translations targetLanguages

/-- Runtime outcomes `flattenKeys` can be observed to have on an
arbitrarily typed top-level input.  `invalidDocument` is the failure the
specification's taxonomy names for a non-object input; the implementation
contains no such check (the object requirement is only enforced by the
static type), so the constructor is never produced. -/
inductive FlattenErr where
  | typeError : FlattenErr
  | invalidDocument : FlattenErr
deriving DecidableEq, Repr

/-- Index keys of an array value (`Object.keys` on an array: the indices,
then the stored string properties). -/
def arrayEntries (elems : List Json) (props : List (String × Json)) : List (String × Json) :=
  (elems.enum.map (fun e => (toString e.1, e.2))) ++ props

/-- `flattenKeys` applied to an arbitrarily typed top-level value, as
JavaScript executes it: `Object.keys(null)` throws a `TypeError`;
numbers and booleans have no enumerable keys, so the result is `[]`;
strings and arrays enumerate their indices. -/
def flattenTop : Json → Except FlattenErr (List String)
  | .null => .error .typeError
  | .bool _ => .ok []
  | .num _ => .ok []
  | .str s => .ok (s.data.enum.map (fun e => toString e.1))
  | .arr elems props => .ok (flattenKeys (arrayEntries elems props) "")
  | .obj es => .ok (flattenKeys es "")

/-- Keys of an association list. -/
def entryKeys (es : List (String × Json)) : List String :=
  es.map (·.1)

mutual

/-- A value all of whose array parts carry no string-keyed properties:
exactly the values in the image of JSON text (and of `jsonClone`). -/
def propFree : Json → Bool
  | .null => true
  | .bool _ => true
  | .num _ => true
  | .str _ => true
  | .arr elems props => props.isEmpty && propFreeList elems
  | .obj es => propFreeEntries es
termination_by j => sizeOf j
decreasing_by all_goals (simp_wf; try omega)

/-- Property-freeness of every element of a list of values. -/
def propFreeList : List Json → Bool
  | [] => true
  | v :: rest => propFree v && propFreeList rest
termination_by l => sizeOf l
decreasing_by all_goals (simp_wf; try omega)

/-- Property-freeness of every value of an association list. -/
def propFreeEntries : List (String × Json) → Bool
  | [] => true
  | (_, v) :: rest => propFree v && propFreeEntries rest
termination_by l => sizeOf l
decreasing_by all_goals (simp_wf; try omega)

end

/-- Well-formed document entries: at every object level the keys are
pairwise distinct, non-empty and dot-free, nested objects are again
well-formed, and array values are property-free JSON data. -/
def wfEntries : List (String × Json) → Bool
  | [] => true
  | (k, v) :: rest =>
    k != "" && dotFree k &&
      (match v with
       | .obj es' => wfEntries es'
       | .arr elems props => propFree (.arr elems props)
       | _ => true) &&
      !(entryKeys rest).contains k && wfEntries rest
termination_by es => sizeOf es
decreasing_by all_goals (simp_wf; try omega)

/-- ASCII upper-casing of a character, as `String.prototype.toUpperCase`
acts on the ASCII range (invite codes are ASCII). -/
def upChar (c : Char) : Char :=
  if 'a' ≤ c && c ≤ 'z' then Char.ofNat (c.toNat - 32) else c

/-- `s.toUpperCase()` over the ASCII range. -/
def upStr (s : String) : String :=
  String.mk (s.data.map upChar)

/-- Membership roles. -/
inductive Role where
  | owner : Role
  | editor : Role
  | viewer : Role
deriving DecidableEq, Repr

/-- An `InviteCode` row (timestamps are epoch milliseconds). -/
structure InviteCode where
  id : Nat
  code : String
  role : Role
  maxUses : Option Int
  uses : Int
  expiresAt : Option Int
  projectId : String
  createdById : String

/-- The slice of a `Project` row the join endpoint consults. -/
structure ProjectRec where
  id : String
  ownerId : String

/-- A `ProjectMember` row (named to avoid the ambient `Membership` class). -/
structure MemberRow where
  userId : String
  projectId : String
  role : Role
deriving DecidableEq, Repr

/-- The shared-storage tables the join endpoint touches. -/
structure JoinState where
  codes : List InviteCode
  projects : List ProjectRec
  members : List MemberRow

/-- Join failures, one per distinct rejection response of the endpoint
(`internalError` stands for the impossible case of an invite row whose
project row is missing — a foreign key of the schema). -/
inductive JoinError where
  | invalidCode : JoinError
  | codeExpired : JoinError
  | codeExhausted : JoinError
  | alreadyOwner : JoinError
  | alreadyMember : JoinError
  | internalError : JoinError
deriving DecidableEq, Repr

/-- `prisma.inviteCode.findUnique({ where: { code: code.toUpperCase() } })`:
the stored code column is unique, so the first match is the row. -/
def findCode (st : JoinState) (rawCode : String) : Option InviteCode :=
  st.codes.find? (fun ic => ic.code = upStr rawCode)

/-- Project row of an invite (fetched by the `include` of the lookup). -/
def findProject (st : JoinState) (projectId : String) : Option ProjectRec :=
  st.projects.find? (fun p => p.id = projectId)

/-- `prisma.projectMember.findUnique({ where: { userId_projectId: … } })`. -/
def findMember (st : JoinState) (userId projectId : String) : Option MemberRow :=
  st.members.find? (fun m => m.userId = userId && m.projectId = projectId)

/-- `invite.expiresAt && invite.expiresAt < new Date()` (a `Date` is
always truthy, so `Option` captures the guard exactly). -/
def isExpired (ic : InviteCode) (now : Int) : Bool :=
  match ic.expiresAt with
  | some t => decide (t < now)
  | none => false

/-- `invite.maxUses && invite.uses >= invite.maxUses`: a `null` **or
zero** bound is falsy and skips the exhaustion check entirely. -/
def isExhausted (ic : InviteCode) : Bool :=
  match ic.maxUses with
  | some m => decide (m ≠ 0) && decide (m ≤ ic.uses)
  | none => false

/-- The read-and-check phase of `POST /api/join` (everything before the
transaction), returning the invite row to consume or the first failing
check, in the source's order: lookup, expiry, exhaustion, ownership,
existing membership. -/
def joinValidate (st : JoinState) (now : Int) (userId rawCode : String) :
    Except JoinError InviteCode :=
  match findCode st rawCode with
  | none => .error .invalidCode
  | some invite =>
    match findProject st invite.projectId with
    | none => .error .internalError
    | some proj =>
      if isExpired invite now then .error .codeExpired
      else if isExhausted invite then .error .codeExhausted
      else if proj.ownerId = userId then .error .alreadyOwner
      else if (findMember st userId invite.projectId).isSome then .error .alreadyMember
      else .ok invite

/-- The `prisma.$transaction` of the endpoint: create the membership and
increment the stored `uses` of the invite row, as one atomic step. -/
def joinCommit (st : JoinState) (invite : InviteCode) (userId : String) : JoinState :=
  { st with
    members := st.members ++ [⟨userId, invite.projectId, invite.role⟩]
    codes := st.codes.map (fun ic => if ic.id = invite.id then { ic with uses := ic.uses + 1 } else ic) }

/-- A whole uninterleaved request: validate, then commit on success; a
rejected request performs no write. -/
def join (st : JoinState) (now : Int) (userId rawCode : String) :
    Except JoinError Role × JoinState :=
  match joinValidate st now userId rawCode with
  | .error e => (.error e, st)
  | .ok invite => (.ok invite.role, joinCommit st invite userId)

/-- Two concurrent requests interleaved so that both run their
read-and-check phase against the same initial state before either
transaction commits — a schedule the endpoint permits, because the
exhaustion check happens outside the transaction and the increment is
unconditional. -/
def joinRace (st : JoinState) (now : Int) (u1 c1 u2 c2 : String) :
    Except JoinError Role × Except JoinError Role × JoinState :=
  let v1 := joinValidate st now u1 c1
  let v2 := joinValidate st now u2 c2
  let st1 := match v1 with
    | .ok invite => joinCommit st invite u1
    | .error _ => st
  let st2 := match v2 with
    | .ok invite => joinCommit st1 invite u2
    | .error _ => st1
  (v1.map (·.role), v2.map (·.role), st2)

/-- `maxUses: maxUses || null` of the invite-creation endpoint: a missing
**or zero** requested bound is stored as `null` (unlimited). -/
def normMaxUses (requested : Option Int) : Option Int :=
  match requested with
  | some v => if v = 0 then none else some v
  | none => none

/-- The invite row built by `POST /api/projects/[id]/invites`
(`expiresInDays ? new Date(Date.now() + days·86400000) : null`, with the
same truthiness collapse for a zero day count). -/
def createInvite (id : Nat) (code : String) (role : Role) (maxUses : Option Int)
    (expiresInDays : Option Int) (now : Int) (projectId createdById : String) : InviteCode :=
  { id := id
    code := code
    role := role
    maxUses := normMaxUses maxUses
    uses := 0
    expiresAt :=
      match expiresInDays with
      | some d => if d = 0 then none else some (now + d * 86400000)
      | none => none
    projectId := projectId
    createdById := createdById }

/-- Sanity of the shared tables: each invite row points at an existing
project row (the schema's foreign key) and row ids are unique. -/
def wfJoinState (st : JoinState) : Prop :=
  st.codes.all (fun ic => (findProject st ic.projectId).isSome) = true ∧
    (st.codes.map (fun ic => ic.id)).Nodup

/-- Memberships of a project. -/
def projectMembers (st : JoinState) (projectId : String) : List MemberRow :=
  st.members.filter (fun m => m.projectId = projectId)

/-- A local `TranslationProject` record as persisted by the browser store. -/
structure TranslationProject where
  id : String
  name : String
  masterLanguage : String
  targetLanguages : List String
  masterData : List (String × Json)
  translations : List (String × Json)
  lastModified : Int

/-- A shared-storage project record (the fields the sync paths touch). -/
structure CloudProjectRec where
  id : String
  name : String
  masterLanguage : String
  targetLanguages : List String
  masterData : List (String × Json)
  translations : List (String × Json)
  ownerId : String

/-- The client state around `handleSave` / `handleUploadToCloud`:
the open project, the save-in-progress flag, the resolved cloud identity
of the open project and the caller's role on it, the two stores, and the
browser profile (`userId` always exists; `userEmail` is the profile
prerequisite). -/
structure ClientState where
  currentProject : Option TranslationProject
  isSaving : Bool
  currentCloudProject : Option String
  cloudProjectRole : Role
  localStore : List TranslationProject
  cloudStore : List CloudProjectRec
  userId : String
  userEmail : Option String

/-- `hasUserProfile()`: `!!getUserEmail()` — an absent or empty stored
email is no profile. -/
def hasUserProfile (st : ClientState) : Bool :=
  match st.userEmail with
  | some e => e != ""
  | none => false

/-- `saveProject`: an IndexedDB `put` keyed by `id`, refreshing
`lastModified` — replace the record with the same id, or add it. -/
def upsertProject (store : List TranslationProject) (p : TranslationProject) :
    List TranslationProject :=
  if store.any (fun q => q.id = p.id) then
    store.map (fun q => if q.id = p.id then p else q)
  else store ++ [p]

/-- `loadProject(id)`: the stored record, or `null`. -/
def loadProject (store : List TranslationProject) (id : String) : Option TranslationProject :=
  store.find? (fun q => q.id = id)

/-- `deleteProject(id)` on the local store. -/
def removeProject (store : List TranslationProject) (id : String) : List TranslationProject :=
  store.filter (fun q => q.id ≠ id)

/-- `updateProject` on shared storage, as `handleSave` calls it: replace
`masterData`, `translations` and `targetLanguages` of the record. -/
def updateCloudStore (store : List CloudProjectRec) (id : String) (p : TranslationProject) :
    List CloudProjectRec :=
  store.map (fun c =>
    if c.id = id then
      { c with
        masterData := p.masterData
        translations := p.translations
        targetLanguages := p.targetLanguages }
    else c)

/-- `handleSave` (the `persist` operation): bail out when no project is
open or a save is already running; otherwise always write the open
project to the local store, and additionally push it to shared storage
exactly when the project has a cloud identity and the caller's role is
not `viewer`. -/
def handleSave (st : ClientState) (now : Int) : ClientState :=
  match st.currentProject with
  | none => st
  | some p =>
    if st.isSaving then st
    else
      let local' := upsertProject st.localStore { p with lastModified := now }
      let cloud' :=
        match st.currentCloudProject with
        | some cid =>
          if st.cloudProjectRole ≠ Role.viewer then updateCloudStore st.cloudStore cid p
          else st.cloudStore
        | none => st.cloudStore
      { st with localStore := local', cloudStore := cloud' }

/-- Outcomes of `handleUploadToCloud` (the `promote` operation):
`noop` when no project is open or it already lives in the cloud,
`denied` when no profile is established (`PromotionDenied`), `promoted`
on success. -/
inductive PromoteOutcome where
  | noop : PromoteOutcome
  | denied : PromoteOutcome
  | promoted : PromoteOutcome
deriving DecidableEq, Repr

/-- `handleUploadToCloud`: guard on an open, not-yet-promoted project;
require an established profile before any shared-storage write; then
create the shared record (owned by the caller), delete the local record,
and mark the session as owner of the new cloud project. -/
def handleUploadToCloud (st : ClientState) (freshId : String) :
    PromoteOutcome × ClientState :=
  match st.currentProject with
  | none => (.noop, st)
  | some p =>
    if st.currentCloudProject.isSome then (.noop, st)
    else if !hasUserProfile st then (.denied, st)
    else
      let cloud : CloudProjectRec :=
        { id := freshId
          name := p.name
          masterLanguage := p.masterLanguage
          targetLanguages := p.targetLanguages
          masterData := p.masterData
          translations := p.translations
          ownerId := st.userId }
      (.promoted,
        { st with
          cloudStore := st.cloudStore ++ [cloud]
          localStore := removeProject st.localStore p.id
          currentCloudProject := some freshId
          cloudProjectRole := Role.owner })

/-- Entries containing no empty-object value anywhere (through objects). -/
def neEntries : List (String × Json) → Bool
  | [] => true
  | (_, v) :: rest =>
    (match v with
     | .obj es' => !es'.isEmpty && neEntries es'
     | _ => true) && neEntries rest
termination_by es => sizeOf es
decreasing_by all_goals (simp_wf; try omega)

/-- Proper non-empty prefixes of a segment list (`[a] … [a,…,last-but-one]`). -/
def strictPrefixes : List String → List (List String)
  | [] => []
  | [_] => []
  | p :: rest => [p] :: (strictPrefixes rest).map (fun q => p :: q)

/-- The precondition of the round-trip claim as the specification words
it: along every flattened path, every proper dotted prefix resolves to a
plain object (no array or scalar "false leaf" sits mid-path). -/
def noFalseLeaves (es : List (String × Json)) : Bool :=
  (flattenKeys es "").all (fun p =>
    (strictPrefixes (splitDot p)).all (fun q =>
      match getParts (.obj es) q with
      | some v => v.isPlainObject
      | none => false))

/-- Re-derivation of a document from its leaves: repeated `set` on the
empty object, one flattened path at a time, each value taken from the
original via `get` (`none` when a lookup or a write fails). -/
def rebuildDoc (es : List (String × Json)) : Option (List (String × Json)) :=
  (flattenKeys es "").foldlM
    (fun acc p =>
      match getValueByPath es p with
      | some v => setValueByPath acc p v
      | none => none)
    []

/-- The forest a document denotes directly: one node per entry, a folder
with the recursively built children for a plain-object value, a leaf
otherwise (the reference shape `buildKeyTree ∘ flattenKeys` is proved to
reproduce). -/
def docForest : List (String × Json) → String → List KeyNode
  | [], _ => []
  | (k, v) :: rest, pre =>
    (match v with
     | .obj es => KeyNode.mk k (joinKey pre k) false (docForest es (joinKey pre k))
     | _ => KeyNode.mk k (joinKey pre k) true []) :: docForest rest pre
termination_by l _ => sizeOf l
decreasing_by all_goals (simp_wf; try omega)

/-- Segment-list form of `flattenKeys`: the key chains of all leaves. -/
def flattenComps : List (String × Json) → List (List String)
  | [] => []
  | (k, v) :: rest =>
    (match v with
     | .obj es => (flattenComps es).map (fun c => k :: c)
     | _ => [[k]]) ++ flattenComps rest
termination_by l => sizeOf l
decreasing_by all_goals (simp_wf; try omega)

/-- Dot-joining of a segment list (`intercalate "."`). -/
def dotJoin : List String → String
  | [] => ""
  | [s] => s
  | s :: rest => s ++ "." ++ dotJoin rest

/-- Comps-level form of `setValueByPath`: clone, walk by segments, return
the top-level entries (`none` on an exception). -/
def objSet (a : List (String × Json)) (comps : List String) (v : Json) :
    Option (List (String × Json)) :=
  match setParts (jsonClone (.obj a)) comps v with
  | some (.obj r) => some r
  | _ => none

/-- Leaves of a document with their key chains, in `flattenKeys` order. -/
def flattenLeaves : List (String × Json) → List (List String × Json)
  | [] => []
  | (k, v) :: rest =>
    (match v with
     | .obj es => (flattenLeaves es).map (fun e => (k :: e.1, e.2))
     | _ => [([k], v)]) ++ flattenLeaves rest
termination_by l => sizeOf l
decreasing_by all_goals (simp_wf; try omega)

/-- A nesting context: an outermost-first list of (siblings, key) frames;
`ctxWrap` plugs a document into the hole. -/
def ctxWrap : List (List (String × Json) × String) → List (String × Json) →
    List (String × Json)
  | [], doc => doc
  | (base, k) :: rest, doc => base ++ [(k, Json.obj (ctxWrap rest doc))]

/-- The key chain of a context. -/
def ctxKeys (ctx : List (List (String × Json) × String)) : List String :=
  ctx.map (fun f => f.2)

/-- Sanity of a context: each frame's siblings are property-free and do
not contain the frame's key. -/
def ctxOK : List (List (String × Json) × String) → Bool
  | [] => true
  | (base, k) :: rest => propFreeEntries base && (lookupEntry base k).isNone && ctxOK rest

/-!
Supporting lemmas, then one theorem (plus counterexample/witness where
required) per claim.
-/

theorem NodeStats.add_mk (a b c d e f g h : Nat) :
    (NodeStats.mk a b c d) + (NodeStats.mk e f g h) =
      NodeStats.mk (a + e) (b + f) (c + g) (d + h) := rfl

theorem stringMk_data (s : String) : String.mk s.data = s := rfl

/-- C7 (code bug exhibit): on the document `{"a": null}` and path
`"a.b"`, `setValueByPath` hits the `null` intermediate — `typeof null ===
'object'` passes the repair guard, so the walk descends into `null` and
the final property write throws a `TypeError` (modelled as `none`),
instead of replacing the `null` with a fresh object as the specification
prescribes. -/
theorem setValueByPath_throws_on_null_intermediate :
    setValueByPath [("a", Json.null)] "a.b" (Json.str "x") = none := by
  simp [setValueByPath, splitDot, splitDotChars, setParts, jsonClone, jsonCloneEntries,
    Json.objectLike, Json.propGet, Json.propSet, Json.hasProp, Json.typeofObject, lookupEntry]

/-- C9 (counterexample): the number `5` is not a plain object, yet
`flattenKeys` applied to it returns the empty path list instead of
failing with `InvalidDocument`. -/
theorem flattenTop_number_no_invalidDocument :
    (Json.num 5).isPlainObject = false ∧
    flattenTop (Json.num 5) = Except.ok [] ∧
    flattenTop (Json.num 5) ≠ Except.error FlattenErr.invalidDocument := by
  refine ⟨rfl, rfl, ?_⟩
  simp [flattenTop]

/-- C9 (amended): `flattenKeys` performs no runtime document validation —
no input whatsoever produces `InvalidDocument` (the object requirement
lives in the static type only); at runtime the only failing non-object
input is `null`/`undefined`, which throws a `TypeError`, while every
other non-object input yields an ordinary path list. -/
theorem flattenTop_never_invalidDocument :
    (∀ j : Json, flattenTop j ≠ Except.error FlattenErr.invalidDocument) ∧
    (∀ j : Json, flattenTop j = Except.error FlattenErr.typeError ↔ j = Json.null) := by
  constructor <;> intro j <;> cases j <;> simp [flattenTop]

/-- C1 (code bug exhibit): a `maxUses = 1` invite code accepted by two
distinct users under the schedule "both validation phases read the
initial state, then both transactions commit" grants **two** memberships
and drives `uses` to `2` — the exhaustion check runs outside the
transaction and the increment is unconditional, so the claimed
at-most-one outcome is not enforced. -/
theorem joinRace_maxUses_one_grants_two_memberships :
    (joinRace
      ⟨[⟨1, "CODE1234", .editor, some 1, 0, none, "p1", "owner1"⟩],
       [⟨"p1", "owner1"⟩], []⟩
      0 "u1" "code1234" "u2" "CODE1234") =
    (.ok .editor, .ok .editor,
      ⟨[⟨1, "CODE1234", .editor, some 1, 2, none, "p1", "owner1"⟩],
       [⟨"p1", "owner1"⟩],
       [⟨"u1", "p1", .editor⟩, ⟨"u2", "p1", .editor⟩]⟩) := by
  simp [joinRace, joinValidate, joinCommit, findCode, findProject, findMember,
    isExpired, isExhausted, upStr, upChar, Except.map]

/-- C5 (counterexample): with an empty target-language list, a leaf is
translated for none of the languages, so the claim's classification
("missing iff translated for none") would count it as missing — but the
implementation bails out before classifying, leaving all three buckets
at `0`. -/
theorem stats_leave_leaf_unclassified_when_no_languages :
    calculateNodeStats (KeyNode.mk "a" "a" true []) [] [] = ⟨1, 0, 0, 0⟩ ∧
    specNodeStats (KeyNode.mk "a" "a" true []) [] [] = ⟨1, 0, 0, 1⟩ ∧
    calculateNodeStats (KeyNode.mk "a" "a" true []) [] [] ≠
      specNodeStats (KeyNode.mk "a" "a" true []) [] [] := by
  refine ⟨?_, ?_, ?_⟩ <;>
    simp [calculateNodeStats, specNodeStats, statsOfLeaves, nodeLeaves, List.filter]

/-- C10: invite creation stores a requested bound of `0` as `null`
(`maxUses || null`), and the join endpoint's exhaustion test
(`invite.maxUses && uses >= invite.maxUses`) is skipped for a falsy
bound, so a code whose stored `maxUses` is `0` joins successfully —
adding the membership and incrementing `uses` — for any current `uses`
value, instead of rejecting with `CodeExhausted`. -/
theorem zero_maxUses_means_unlimited :
    normMaxUses (some 0) = none ∧
    (∀ st now u c invite proj,
      findCode st c = some invite →
      invite.maxUses = some 0 →
      findProject st invite.projectId = some proj →
      isExpired invite now = false →
      proj.ownerId ≠ u →
      findMember st u invite.projectId = none →
      join st now u c = (.ok invite.role, joinCommit st invite u) ∧
        (⟨u, invite.projectId, invite.role⟩ : MemberRow) ∈ (joinCommit st invite u).members ∧
        { invite with uses := invite.uses + 1 } ∈ (joinCommit st invite u).codes) := by
  refine ⟨rfl, ?_⟩
  intro st now u c invite proj hfind hmax hproj hexp hown hmem
  have hexh : isExhausted invite = false := by
    simp [isExhausted, hmax]
  have hval : joinValidate st now u c = .ok invite := by
    simp [joinValidate, hfind, hproj, hexp, hexh, hown, hmem]
  refine ⟨by simp [join, hval], ?_, ?_⟩
  · simp [joinCommit]
  · have hmemb : invite ∈ st.codes := by
      have := List.mem_of_find?_eq_some hfind
      exact this
    have : ({ invite with uses := invite.uses + 1 } : InviteCode) =
        (fun ic => if ic.id = invite.id then { ic with uses := ic.uses + 1 } else ic) invite := by
      simp
    simp only [joinCommit]
    rw [this]
    exact List.mem_map_of_mem _ hmemb

/-- C10 (witness): a concrete code with stored `maxUses = 0` and `uses =
7` is accepted and bumped to `uses = 8`. -/
theorem zero_maxUses_means_unlimited_witness :
    join ⟨[⟨1, "ZZZZ2222", .viewer, some 0, 7, none, "p1", "o1"⟩], [⟨"p1", "o1"⟩], []⟩
        5 "u9" "zzzz2222" =
      (.ok Role.viewer,
        joinCommit ⟨[⟨1, "ZZZZ2222", .viewer, some 0, 7, none, "p1", "o1"⟩], [⟨"p1", "o1"⟩], []⟩
          ⟨1, "ZZZZ2222", .viewer, some 0, 7, none, "p1", "o1"⟩ "u9") := by
  exact (zero_maxUses_means_unlimited.2
    ⟨[⟨1, "ZZZZ2222", .viewer, some 0, 7, none, "p1", "o1"⟩], [⟨"p1", "o1"⟩], []⟩
    5 "u9" "zzzz2222"
    ⟨1, "ZZZZ2222", .viewer, some 0, 7, none, "p1", "o1"⟩
    ⟨"p1", "o1"⟩
    (by simp [findCode, upStr, upChar]) rfl
    (by simp [findProject]) rfl (by simp) (by simp [findMember])).1

/-- C4 (counterexample): the project owner presenting an **expired** code
receives `CodeExpired`, not `AlreadyOwner` — the ownership check runs
only after the expiry and exhaustion checks, contradicting the claim's
"regardless of code validity". -/
theorem join_owner_with_expired_code_gets_codeExpired :
    (join ⟨[⟨1, "CODE1111", .editor, none, 0, some 10, "p1", "o1"⟩],
        [⟨"p1", "o1"⟩], []⟩ 20 "o1" "CODE1111").1 = .error .codeExpired ∧
    (join ⟨[⟨1, "CODE1111", .editor, none, 0, some 10, "p1", "o1"⟩],
        [⟨"p1", "o1"⟩], []⟩ 20 "o1" "CODE1111").1 ≠ .error .alreadyOwner := by
  constructor <;>
    simp [join, joinValidate, findCode, findProject, isExpired, isExhausted,
      upStr, upChar]

/-- C4 (amended): the join endpoint canonicalises the presented code to
upper case before the lookup (so differently-cased inputs behave
identically), then checks in order: unknown code → `InvalidCode`; past
`expiresAt` → `CodeExpired`; truthy `maxUses` with `uses ≥ maxUses` →
`CodeExhausted`; caller owns the project → `AlreadyOwner` (hence only
for a live, unexhausted code); existing membership → `AlreadyMember`;
and every rejected join leaves the stores untouched. -/
theorem join_error_discipline :
    (∀ st now u c₁ c₂, upStr c₁ = upStr c₂ → join st now u c₁ = join st now u c₂) ∧
    (∀ st now u c, (join st now u c).1 = .error .invalidCode ↔ findCode st c = none) ∧
    (∀ st now u c invite proj, findCode st c = some invite →
      findProject st invite.projectId = some proj →
      ((join st now u c).1 = .error .codeExpired ↔ isExpired invite now = true) ∧
      ((join st now u c).1 = .error .codeExhausted ↔
        (isExpired invite now = false ∧ isExhausted invite = true)) ∧
      ((join st now u c).1 = .error .alreadyOwner ↔
        (isExpired invite now = false ∧ isExhausted invite = false ∧ proj.ownerId = u)) ∧
      ((join st now u c).1 = .error .alreadyMember ↔
        (isExpired invite now = false ∧ isExhausted invite = false ∧ proj.ownerId ≠ u ∧
          (findMember st u invite.projectId).isSome = true))) ∧
    (∀ st now u c e, (join st now u c).1 = Except.error e → (join st now u c).2 = st) := by
  refine ⟨?_, ?_, ?_, ?_⟩
  · intro st now u c₁ c₂ h
    simp [join, joinValidate, findCode, h]
  · intro st now u c
    cases hfind : findCode st c with
    | none => simp [join, joinValidate, hfind]
    | some invite =>
      cases hproj : findProject st invite.projectId with
      | none => simp [join, joinValidate, hfind, hproj]
      | some proj =>
        simp only [join, joinValidate, hfind, hproj]
        split_ifs <;> simp
  · intro st now u c invite proj hfind hproj
    simp only [join, joinValidate, hfind, hproj]
    refine ⟨?_, ?_, ?_, ?_⟩ <;> (split_ifs <;> simp_all)
  · intro st now u c e
    cases hval : joinValidate st now u c with
    | error e' => simp [join, hval]
    | ok invite => simp [join, hval]

/-- C4 (witness): on a live, unexhausted code presented by the project
owner in lower case, the amended discipline yields `AlreadyOwner`. -/
theorem join_error_discipline_witness :
    (join ⟨[⟨1, "ABCD2345", .editor, none, 0, none, "p1", "o1"⟩],
        [⟨"p1", "o1"⟩], []⟩ 0 "o1" "abcd2345").1 = .error .alreadyOwner := by
  exact ((join_error_discipline.2.2.1
    ⟨[⟨1, "ABCD2345", .editor, none, 0, none, "p1", "o1"⟩], [⟨"p1", "o1"⟩], []⟩
    0 "o1" "abcd2345"
    ⟨1, "ABCD2345", .editor, none, 0, none, "p1", "o1"⟩
    ⟨"p1", "o1"⟩
    (by simp [findCode, upStr, upChar])
    (by simp [findProject])).2.2.1).mpr ⟨rfl, rfl, rfl⟩

theorem find_map_upsert (p : TranslationProject) :
    ∀ store : List TranslationProject, store.any (fun r => r.id = p.id) = true →
      (store.map (fun q => if q.id = p.id then p else q)).find? (fun r => r.id = p.id) = some p
  | [], h => by simp at h
  | q :: rest, h => by
    by_cases hq : q.id = p.id
    · simp [List.find?, hq]
    · have hrest : rest.any (fun r => r.id = p.id) = true := by
        simp only [List.any_cons, hq, decide_eq_true_eq] at h
        simpa using h
      have hrec := find_map_upsert p rest hrest
      simp only [List.map_cons, List.find?, hq, if_false]
      simpa [hq] using hrec

theorem find_append_self (p : TranslationProject) :
    ∀ store : List TranslationProject, store.any (fun r => r.id = p.id) = false →
      (store ++ [p]).find? (fun r => r.id = p.id) = some p
  | [], _ => by simp [List.find?]
  | q :: rest, h => by
    have hq : ¬ (q.id = p.id) := by
      simp only [List.any_cons, Bool.or_eq_false_iff, decide_eq_false_iff_not] at h
      exact h.1
    have hrest : rest.any (fun r => r.id = p.id) = false := by
      simp only [List.any_cons, Bool.or_eq_false_iff] at h
      exact h.2
    have hrec := find_append_self p rest hrest
    simp only [List.cons_append, List.find?]
    simpa [hq] using hrec

theorem loadProject_upsert (store : List TranslationProject) (p : TranslationProject) :
    loadProject (upsertProject store p) p.id = some p := by
  by_cases h : store.any (fun r => r.id = p.id)
  · simp only [upsertProject, loadProject, h, if_true]
    exact find_map_upsert p store h
  · simp only [upsertProject, loadProject, eq_false_of_ne_true h, if_false]
    exact find_append_self p store (eq_false_of_ne_true h)

/-- C6: with a project open and no save already running, `handleSave`
always writes the (freshly stamped) project to the local store — it is
loadable there afterwards — and touches shared storage **iff** the
project has a cloud identity and the caller's role is not `viewer`; in
particular a viewer-role save leaves the shared store unchanged. -/
theorem handleSave_local_always_cloud_iff_promoted_nonviewer :
    ∀ (st : ClientState) (now : Int) (p : TranslationProject),
      st.currentProject = some p → st.isSaving = false →
      loadProject (handleSave st now).localStore p.id = some { p with lastModified := now } ∧
      ((st.currentCloudProject = none ∨ st.cloudProjectRole = Role.viewer) →
        (handleSave st now).cloudStore = st.cloudStore) ∧
      (∀ cid, st.currentCloudProject = some cid → st.cloudProjectRole ≠ Role.viewer →
        (handleSave st now).cloudStore = updateCloudStore st.cloudStore cid p) := by
  intro st now p hcur hsav
  have hid : ({ p with lastModified := now } : TranslationProject).id = p.id := rfl
  refine ⟨?_, ?_, ?_⟩
  · simp only [handleSave, hcur, hsav, if_false, Bool.false_eq_true]
    rw [← hid]
    exact loadProject_upsert st.localStore { p with lastModified := now }
  · intro h
    cases h with
    | inl h => simp [handleSave, hcur, hsav, h]
    | inr h =>
      cases hc : st.currentCloudProject with
      | none => simp [handleSave, hcur, hsav, hc]
      | some cid => simp [handleSave, hcur, hsav, hc, h]
  · intro cid hc hrole
    simp [handleSave, hcur, hsav, hc, hrole]

/-- C6 (witness): a viewer-role save of an open cloud-backed project
updates the local store and leaves the shared store exactly as it was. -/
theorem handleSave_viewer_witness :
    loadProject
        (handleSave
          ⟨some ⟨"l1", "n", "en", [], [], [], 0⟩, false, some "c1", Role.viewer,
            [], [⟨"c1", "n", "en", [], [], [], "o1"⟩], "u1", some "e@x"⟩ 99).localStore
        "l1" = some ⟨"l1", "n", "en", [], [], [], 99⟩ ∧
    (handleSave
        ⟨some ⟨"l1", "n", "en", [], [], [], 0⟩, false, some "c1", Role.viewer,
          [], [⟨"c1", "n", "en", [], [], [], "o1"⟩], "u1", some "e@x"⟩ 99).cloudStore =
      [⟨"c1", "n", "en", [], [], [], "o1"⟩] := by
  refine ⟨?_, ?_⟩
  · exact (handleSave_local_always_cloud_iff_promoted_nonviewer
      ⟨some ⟨"l1", "n", "en", [], [], [], 0⟩, false, some "c1", Role.viewer,
        [], [⟨"c1", "n", "en", [], [], [], "o1"⟩], "u1", some "e@x"⟩ 99
      ⟨"l1", "n", "en", [], [], [], 0⟩ rfl rfl).1
  · exact (handleSave_local_always_cloud_iff_promoted_nonviewer
      ⟨some ⟨"l1", "n", "en", [], [], [], 0⟩, false, some "c1", Role.viewer,
        [], [⟨"c1", "n", "en", [], [], [], "o1"⟩], "u1", some "e@x"⟩ 99
      ⟨"l1", "n", "en", [], [], [], 0⟩ rfl rfl).2.1 (Or.inr rfl)

/-- C8: `handleUploadToCloud` on an open, not-yet-promoted project with
no established profile fails with the denial outcome and performs no
writes at all — both stores are exactly as before, so the local record
is still loadable. -/
theorem handleUploadToCloud_denied_no_writes :
    ∀ (st : ClientState) (fid : String) (p : TranslationProject),
      st.currentProject = some p →
      st.currentCloudProject = none →
      hasUserProfile st = false →
      handleUploadToCloud st fid = (.denied, st) ∧
      loadProject (handleUploadToCloud st fid).2.localStore p.id =
        loadProject st.localStore p.id ∧
      (handleUploadToCloud st fid).2.cloudStore = st.cloudStore := by
  intro st fid p hcur hc hprof
  have h : handleUploadToCloud st fid = (.denied, st) := by
    simp [handleUploadToCloud, hcur, hc, hprof]
  exact ⟨h, by rw [h], by rw [h]⟩

/-- C8 (witness): a concrete profile-less session is denied and its
local record remains loadable. -/
theorem handleUploadToCloud_denied_witness :
    handleUploadToCloud
        ⟨some ⟨"l1", "n", "en", [], [], [], 0⟩, false, none, Role.viewer,
          [⟨"l1", "n", "en", [], [], [], 0⟩], [], "u1", none⟩ "fresh" =
      (.denied,
        ⟨some ⟨"l1", "n", "en", [], [], [], 0⟩, false, none, Role.viewer,
          [⟨"l1", "n", "en", [], [], [], 0⟩], [], "u1", none⟩) := by
  exact (handleUploadToCloud_denied_no_writes
    ⟨some ⟨"l1", "n", "en", [], [], [], 0⟩, false, none, Role.viewer,
      [⟨"l1", "n", "en", [], [], [], 0⟩], [], "u1", none⟩ "fresh"
    ⟨"l1", "n", "en", [], [], [], 0⟩ rfl rfl rfl).1

theorem statsOfLeaves_append (l₁ l₂ : List KeyNode) (ts : List (String × Json))
    (L : List String) :
    statsOfLeaves (l₁ ++ l₂) ts L = statsOfLeaves l₁ ts L + statsOfLeaves l₂ ts L := by
  simp [statsOfLeaves, List.filter_append, NodeStats.add_mk]

theorem statsOfLeaves_nil (ts : List (String × Json)) (L : List String) :
    statsOfLeaves [] ts L = ⟨0, 0, 0, 0⟩ := by
  simp [statsOfLeaves]

mutual

theorem calcStats_eq_spec (n : KeyNode) (ts : List (String × Json)) (L : List String)
    (hL : L ≠ []) : calculateNodeStats n ts L = specNodeStats n ts L := by
  match n with
  | ⟨nm, p, true, ch⟩ =>
    have hne : L.isEmpty = false := by
      cases L with
      | nil => exact absurd rfl hL
      | cons a l => rfl
    have hpos : 0 < L.length := by
      cases L with
      | nil => exact absurd rfl hL
      | cons a l => simp
    simp only [calculateNodeStats, specNodeStats, nodeLeaves, if_true, hne,
      Bool.false_eq_true, if_false, statsOfLeaves, List.filter, Bool.not_false,
      Bool.true_and]
    have hle : (L.filter (fun lang => translatedFor ts lang p)).length ≤ L.length :=
      List.length_filter_le _ _
    by_cases h1 : (L.filter (fun lang => translatedFor ts lang p)).length = L.length
    · simp [h1, List.filter, show ¬ L.length = 0 by omega,
        show ¬ L.length < L.length by omega]
    · by_cases h2 : 0 < (L.filter (fun lang => translatedFor ts lang p)).length
      · have h3 : (L.filter (fun lang => translatedFor ts lang p)).length < L.length := by
          omega
        simp [h1, h2, h3, List.filter, show
          ¬ (L.filter (fun lang => translatedFor ts lang p)).length = 0 by omega]
      · have h0 : (L.filter (fun lang => translatedFor ts lang p)).length = 0 := by omega
        simp [h1, h2, h0, List.filter, show ¬ 0 = L.length by omega]
  | ⟨nm, p, false, ch⟩ =>
    have := calcChildren_eq_spec ch ts L hL
    simp only [calculateNodeStats, specNodeStats, nodeLeaves, Bool.false_eq_true,
      if_false, this]
termination_by sizeOf n
decreasing_by all_goals (simp_wf; try omega)

theorem calcChildren_eq_spec (cs : List KeyNode) (ts : List (String × Json)) (L : List String)
    (hL : L ≠ []) : calcChildrenStats cs ts L = statsOfLeaves (nodeLeavesList cs) ts L := by
  match cs with
  | [] => simp [calcChildrenStats, nodeLeavesList, statsOfLeaves_nil]
  | c :: rest =>
    have h1 := calcStats_eq_spec c ts L hL
    have h2 := calcChildren_eq_spec rest ts L hL
    simp only [calcChildrenStats, nodeLeavesList, statsOfLeaves_append, h1, h2,
      specNodeStats]
termination_by sizeOf cs
decreasing_by all_goals (simp_wf; try omega)

end

mutual

theorem calcStats_total (n : KeyNode) (ts : List (String × Json)) (L : List String) :
    (calculateNodeStats n ts L).totalKeys = (nodeLeaves n).length := by
  match n with
  | ⟨nm, p, true, ch⟩ =>
    simp only [calculateNodeStats, nodeLeaves, if_true, List.length_cons, List.length_nil]
    by_cases hL : L.isEmpty
    · simp [hL]
    · simp only [hL, Bool.false_eq_true, if_false]
      split_ifs <;> rfl
  | ⟨nm, p, false, ch⟩ =>
    have := calcChildren_total ch ts L
    simp only [calculateNodeStats, nodeLeaves, Bool.false_eq_true, if_false, this]
termination_by sizeOf n
decreasing_by all_goals (simp_wf; try omega)

theorem calcChildren_total (cs : List KeyNode) (ts : List (String × Json)) (L : List String) :
    (calcChildrenStats cs ts L).totalKeys = (nodeLeavesList cs).length := by
  match cs with
  | [] => simp [calcChildrenStats, nodeLeavesList]
  | c :: rest =>
    have h1 := calcStats_total c ts L
    have h2 := calcChildren_total rest ts L
    match hc : calculateNodeStats c ts L, hr : calcChildrenStats rest ts L with
    | ⟨a, b, d, e⟩, ⟨a', b', d', e'⟩ =>
      simp only [calcChildrenStats, hc, hr, NodeStats.add_mk, nodeLeavesList,
        List.length_append]
      rw [hc] at h1
      rw [hr] at h2
      simp at h1 h2
      omega
termination_by sizeOf cs
decreasing_by all_goals (simp_wf; try omega)

end

theorem jsRound_zero (d : Nat) : jsRound 0 d = 0 := by
  unfold jsRound
  rcases Nat.eq_zero_or_pos d with h | h
  · simp [h]
  · rw [Nat.mul_zero, Nat.zero_add]
    exact Nat.div_eq_of_lt (by omega)

/-- C5 (amended): for a non-empty target-language list the aggregator
classifies every descendant leaf exactly as the specification's
predicates dictate (complete iff translated for all, partial iff for
some but not all, missing iff for none, summed over the subtree); with
an empty language list leaves are counted in `totalKeys` only.  For
folders the progress percentage is `round(100·complete/total)` with `0`
when there are no keys. -/
theorem stats_classification_and_progress :
    (∀ (n : KeyNode) (ts : List (String × Json)) (L : List String), L ≠ [] →
      calculateNodeStats n ts L = specNodeStats n ts L) ∧
    (∀ (n : KeyNode) (ts : List (String × Json)) (L : List String), n.isLeaf = false →
      folderProgress n ts L =
        if (specNodeStats n ts L).totalKeys = 0 then 0
        else jsRound (100 * (specNodeStats n ts L).translatedKeys)
          ((specNodeStats n ts L).totalKeys)) := by
  refine ⟨fun n ts L hL => calcStats_eq_spec n ts L hL, ?_⟩
  intro n ts L hleaf
  by_cases hLe : L = []
  · subst hLe
    have htot : (calculateNodeStats n ts []).totalKeys = (nodeLeaves n).length :=
      calcStats_total n ts []
    have hsp : (specNodeStats n ts []).totalKeys = (nodeLeaves n).length := by
      simp [specNodeStats, statsOfLeaves]
    have htr : (specNodeStats n ts []).translatedKeys = 0 := by
      simp [specNodeStats, statsOfLeaves]
    rw [htr, jsRound_zero, hsp]
    simp [folderProgress]
  · have heq := calcStats_eq_spec n ts L hLe
    have hne : L.isEmpty = false := by
      cases L with
      | nil => exact absurd rfl hLe
      | cons a l => rfl
    simp only [folderProgress, heq, hleaf, hne, Bool.or_false, Bool.false_or,
      Bool.false_eq_true, if_false]
    by_cases h0 : (specNodeStats n ts L).totalKeys = 0
    · simp [h0, jsRound]
    · simp [h0, Nat.mul_comm]

/-- C5 (witness): the specification's worked example — master
`{"a":{"b":"Hello"}}`, translations `{de:{a:{b:"Hallo"}}, fr:{}}`,
languages `["de","fr"]` — classifies `a.b` as partial and aggregates to
`{total: 1, translated: 0, partial: 1, missing: 0}`. -/
theorem stats_classification_witness :
    calculateNodeStats (KeyNode.mk "a" "a" false [KeyNode.mk "b" "a.b" true []])
        [("de", Json.obj [("a", Json.obj [("b", Json.str "Hallo")])]), ("fr", Json.obj [])]
        ["de", "fr"] =
      specNodeStats (KeyNode.mk "a" "a" false [KeyNode.mk "b" "a.b" true []])
        [("de", Json.obj [("a", Json.obj [("b", Json.str "Hallo")])]), ("fr", Json.obj [])]
        ["de", "fr"] ∧
    calculateNodeStats (KeyNode.mk "a" "a" false [KeyNode.mk "b" "a.b" true []])
        [("de", Json.obj [("a", Json.obj [("b", Json.str "Hallo")])]), ("fr", Json.obj [])]
        ["de", "fr"] = ⟨1, 0, 1, 0⟩ := by
  constructor
  · exact stats_classification_and_progress.1
      (KeyNode.mk "a" "a" false [KeyNode.mk "b" "a.b" true []])
      [("de", Json.obj [("a", Json.obj [("b", Json.str "Hallo")])]), ("fr", Json.obj [])]
      ["de", "fr"] (by simp)
  · simp [calculateNodeStats, calcChildrenStats, translatedFor, lookupEntry, Json.truthy,
      getParts, Json.objectLike, Json.propGet, splitDot, splitDotChars, List.filter,
      NodeStats.add_mk]

theorem splitDotChars_no_dot :
    ∀ (l acc : List Char), (∀ c ∈ l, c ≠ '.') →
      splitDotChars l acc = [String.mk (acc.reverse ++ l)]
  | [], acc, _ => by simp [splitDotChars]
  | c :: cs, acc, h => by
    have hc : c ≠ '.' := h c (by simp)
    have hrec := splitDotChars_no_dot cs (c :: acc) (fun x hx => h x (by simp [hx]))
    simp only [splitDotChars, hc, if_false]
    rw [hrec]
    simp

theorem splitDotChars_append :
    ∀ (l₁ l₂ acc : List Char), (∀ c ∈ l₁, c ≠ '.') →
      splitDotChars (l₁ ++ '.' :: l₂) acc =
        String.mk (acc.reverse ++ l₁) :: splitDotChars l₂ []
  | [], l₂, acc, _ => by simp [splitDotChars]
  | c :: cs, l₂, acc, h => by
    have hc : c ≠ '.' := h c (by simp)
    have hrec := splitDotChars_append cs l₂ (c :: acc) (fun x hx => h x (by simp [hx]))
    simp only [List.cons_append, splitDotChars, hc, if_false, List.append_eq]
    rw [hrec]
    simp

theorem dotFree_chars {s : String} (h : dotFree s = true) : ∀ c ∈ s.data, c ≠ '.' := by
  intro c hc
  have := List.all_eq_true.mp h c hc
  simpa using this

theorem splitDot_single {s : String} (h : dotFree s = true) : splitDot s = [s] := by
  unfold splitDot
  rw [splitDotChars_no_dot s.data [] (dotFree_chars h)]
  simp [stringMk_data]

theorem data_append_dot (s₁ s₂ : String) :
    (s₁ ++ "." ++ s₂).data = s₁.data ++ '.' :: s₂.data := by
  simp [String.data_append]

theorem splitDot_append_dot {s₁ : String} (s₂ : String) (h : dotFree s₁ = true) :
    splitDot (s₁ ++ "." ++ s₂) = s₁ :: splitDot s₂ := by
  unfold splitDot
  rw [data_append_dot, splitDotChars_append s₁.data s₂.data [] (dotFree_chars h)]
  simp [stringMk_data]

theorem splitDot_dotJoin :
    ∀ comps : List String, comps ≠ [] → (∀ s ∈ comps, dotFree s = true) →
      splitDot (dotJoin comps) = comps
  | [], h, _ => absurd rfl h
  | [s], _, h => by
    simp only [dotJoin]
    exact splitDot_single (h s (by simp))
  | s :: s' :: rest, _, h => by
    have hrec := splitDot_dotJoin (s' :: rest) (by simp)
      (fun x hx => h x (by simp at hx ⊢; tauto))
    simp only [dotJoin]
    rw [splitDot_append_dot (dotJoin (s' :: rest)) (h s (by simp)), hrec]

theorem joinKey_ne_empty {pre : String} (k : String) (h : pre ≠ "") :
    joinKey pre k ≠ "" := by
  unfold joinKey
  rw [if_neg h]
  intro hcontra
  have : (pre ++ "." ++ k).data = [] := by rw [hcontra]
  rw [data_append_dot] at this
  simp at this

theorem joinKey_of_ne {pre : String} (k : String) (h : pre ≠ "") :
    joinKey pre k = pre ++ "." ++ k := by
  simp [joinKey, h]

theorem joinKey_of_empty (k : String) : joinKey "" k = k := by
  simp [joinKey]

theorem foldl_joinKey_ne :
    ∀ (comps : List String) (pre : String), pre ≠ "" → comps ≠ [] →
      comps.foldl joinKey pre = pre ++ "." ++ dotJoin comps
  | [], _, _, h => absurd rfl h
  | [c], pre, hpre, _ => by
    show joinKey pre c = pre ++ "." ++ dotJoin [c]
    rw [show dotJoin [c] = c from rfl]
    exact joinKey_of_ne c hpre
  | c :: c' :: rest, pre, hpre, _ => by
    have hrec := foldl_joinKey_ne (c' :: rest) (joinKey pre c)
      (joinKey_ne_empty c hpre) (by simp)
    simp only [List.foldl_cons] at hrec ⊢
    rw [hrec, joinKey_of_ne c hpre,
      show dotJoin (c :: c' :: rest) = c ++ "." ++ dotJoin (c' :: rest) from rfl]
    simp [String.append_assoc]

theorem foldl_joinKey_empty :
    ∀ comps : List String, comps ≠ [] → (∀ s ∈ comps, s ≠ "") →
      comps.foldl joinKey "" = dotJoin comps
  | [], h, _ => absurd rfl h
  | [c], _, _ => by
    show joinKey "" c = dotJoin [c]
    rw [show dotJoin [c] = c from rfl]
    exact joinKey_of_empty c
  | c :: c' :: rest, _, h => by
    have hc : c ≠ "" := h c (by simp)
    have hrec := foldl_joinKey_ne (c' :: rest) c hc (by simp)
    simp only [List.foldl_cons] at hrec ⊢
    rw [joinKey_of_empty c, hrec]
    rfl

theorem flattenKeys_eq_comps :
    ∀ (es : List (String × Json)) (pre : String),
      flattenKeys es pre = (flattenComps es).map (fun comps => comps.foldl joinKey pre)
  | [], _ => by simp [flattenKeys, flattenComps]
  | (k, v) :: rest, pre => by
    have hrest := flattenKeys_eq_comps rest pre
    match v with
    | .obj es' =>
      have hes' := flattenKeys_eq_comps es' (joinKey pre k)
      simp only [flattenKeys, flattenComps, List.map_append, List.map_map, hrest, hes']
      congr 1
    | .null => simp [flattenKeys, flattenComps, hrest]
    | .bool b => simp [flattenKeys, flattenComps, hrest]
    | .num n => simp [flattenKeys, flattenComps, hrest]
    | .str s => simp [flattenKeys, flattenComps, hrest]
    | .arr e p => simp [flattenKeys, flattenComps, hrest]
termination_by es _ => sizeOf es
decreasing_by all_goals (simp_wf; try omega)

theorem wf_cons {k : String} {v : Json} {rest : List (String × Json)}
    (h : wfEntries ((k, v) :: rest) = true) :
    k ≠ "" ∧ dotFree k = true ∧
      (match v with
       | .obj es' => wfEntries es' = true
       | .arr elems props => propFree (.arr elems props) = true
       | _ => True) ∧
      (entryKeys rest).contains k = false ∧ wfEntries rest = true := by
  match v with
  | .obj es' =>
    simp only [wfEntries, Bool.and_eq_true, bne_iff_ne, ne_eq, Bool.not_eq_true'] at h
    tauto
  | .arr elems props =>
    simp only [wfEntries, Bool.and_eq_true, bne_iff_ne, ne_eq, Bool.not_eq_true'] at h
    tauto
  | .null =>
    simp only [wfEntries, Bool.and_eq_true, bne_iff_ne, ne_eq, Bool.not_eq_true'] at h
    tauto
  | .bool b =>
    simp only [wfEntries, Bool.and_eq_true, bne_iff_ne, ne_eq, Bool.not_eq_true'] at h
    tauto
  | .num n =>
    simp only [wfEntries, Bool.and_eq_true, bne_iff_ne, ne_eq, Bool.not_eq_true'] at h
    tauto
  | .str s =>
    simp only [wfEntries, Bool.and_eq_true, bne_iff_ne, ne_eq, Bool.not_eq_true'] at h
    tauto

theorem wf_chain :
    ∀ (es : List (String × Json)) (comps : List String),
      wfEntries es = true → comps ∈ flattenComps es →
      comps ≠ [] ∧ ∀ s ∈ comps, s ≠ "" ∧ dotFree s = true
  | [], comps, _, hmem => by simp [flattenComps] at hmem
  | (k, v) :: rest, comps, hwf, hmem => by
    obtain ⟨hk, hdf, hv, hcont, hrest⟩ := wf_cons hwf
    match v with
    | .obj es' =>
      simp only [flattenComps, List.mem_append, List.mem_map] at hmem
      rcases hmem with ⟨cs, hcs, rfl⟩ | hmem
      · have := wf_chain es' cs hv hcs
        refine ⟨by simp, ?_⟩
        intro s hs
        rcases List.mem_cons.mp hs with rfl | hs'
        · exact ⟨hk, hdf⟩
        · exact this.2 s hs'
      · exact wf_chain rest comps hrest hmem
    | .null =>
      simp only [flattenComps, List.mem_append, List.mem_singleton] at hmem
      rcases hmem with rfl | hmem
      · exact ⟨by simp, by intro s hs; rcases List.mem_singleton.mp hs with rfl; exact ⟨hk, hdf⟩⟩
      · exact wf_chain rest comps hrest hmem
    | .bool _ =>
      simp only [flattenComps, List.mem_append, List.mem_singleton] at hmem
      rcases hmem with rfl | hmem
      · exact ⟨by simp, by intro s hs; rcases List.mem_singleton.mp hs with rfl; exact ⟨hk, hdf⟩⟩
      · exact wf_chain rest comps hrest hmem
    | .num _ =>
      simp only [flattenComps, List.mem_append, List.mem_singleton] at hmem
      rcases hmem with rfl | hmem
      · exact ⟨by simp, by intro s hs; rcases List.mem_singleton.mp hs with rfl; exact ⟨hk, hdf⟩⟩
      · exact wf_chain rest comps hrest hmem
    | .str _ =>
      simp only [flattenComps, List.mem_append, List.mem_singleton] at hmem
      rcases hmem with rfl | hmem
      · exact ⟨by simp, by intro s hs; rcases List.mem_singleton.mp hs with rfl; exact ⟨hk, hdf⟩⟩
      · exact wf_chain rest comps hrest hmem
    | .arr _ _ =>
      simp only [flattenComps, List.mem_append, List.mem_singleton] at hmem
      rcases hmem with rfl | hmem
      · exact ⟨by simp, by intro s hs; rcases List.mem_singleton.mp hs with rfl; exact ⟨hk, hdf⟩⟩
      · exact wf_chain rest comps hrest hmem
termination_by es _ => sizeOf es
decreasing_by all_goals (simp_wf; try omega)

theorem flattenKeys_mem_comps {es : List (String × Json)} {p : String}
    (hwf : wfEntries es = true) (hp : p ∈ flattenKeys es "") :
    ∃ comps, comps ∈ flattenComps es ∧ p = dotJoin comps ∧ splitDot p = comps := by
  rw [flattenKeys_eq_comps es ""] at hp
  obtain ⟨comps, hmem, rfl⟩ := List.mem_map.mp hp
  obtain ⟨hne, hfacts⟩ := wf_chain es comps hwf hmem
  have hjoin : comps.foldl joinKey "" = dotJoin comps :=
    foldl_joinKey_empty comps hne (fun s hs => (hfacts s hs).1)
  refine ⟨comps, hmem, hjoin, ?_⟩
  rw [hjoin]
  exact splitDot_dotJoin comps hne (fun s hs => (hfacts s hs).2)

theorem lookupEntry_setEntry_self (es : List (String × Json)) (k : String) (v : Json) :
    lookupEntry (setEntry es k v) k = some v := by
  induction es with
  | nil => simp [setEntry, lookupEntry]
  | cons e rest ih =>
    obtain ⟨k', v'⟩ := e
    by_cases h : k' = k
    · simp [setEntry, lookupEntry, h]
    · simp [setEntry, lookupEntry, h, ih]

theorem flattenComps_head :
    ∀ (es : List (String × Json)) (comps : List String), comps ∈ flattenComps es →
      ∃ p cs, comps = p :: cs ∧ p ∈ entryKeys es
  | [], comps, hmem => by simp [flattenComps] at hmem
  | (k, w) :: rest, comps, hmem => by
    have hnext : comps ∈ flattenComps rest →
        ∃ p cs, comps = p :: cs ∧ p ∈ entryKeys ((k, w) :: rest) := by
      intro h
      obtain ⟨p, cs, rfl, hp⟩ := flattenComps_head rest comps h
      exact ⟨p, cs, rfl, by simp [entryKeys] at hp ⊢; tauto⟩
    match w with
    | .obj es' =>
      simp only [flattenComps, List.mem_append, List.mem_map] at hmem
      rcases hmem with ⟨cs, _, rfl⟩ | hmem
      · exact ⟨k, cs, rfl, by simp [entryKeys]⟩
      · exact hnext hmem
    | .null =>
      simp only [flattenComps, List.mem_append, List.mem_singleton] at hmem
      rcases hmem with rfl | hmem
      · exact ⟨k, [], rfl, by simp [entryKeys]⟩
      · exact hnext hmem
    | .bool _ =>
      simp only [flattenComps, List.mem_append, List.mem_singleton] at hmem
      rcases hmem with rfl | hmem
      · exact ⟨k, [], rfl, by simp [entryKeys]⟩
      · exact hnext hmem
    | .num _ =>
      simp only [flattenComps, List.mem_append, List.mem_singleton] at hmem
      rcases hmem with rfl | hmem
      · exact ⟨k, [], rfl, by simp [entryKeys]⟩
      · exact hnext hmem
    | .str _ =>
      simp only [flattenComps, List.mem_append, List.mem_singleton] at hmem
      rcases hmem with rfl | hmem
      · exact ⟨k, [], rfl, by simp [entryKeys]⟩
      · exact hnext hmem
    | .arr _ _ =>
      simp only [flattenComps, List.mem_append, List.mem_singleton] at hmem
      rcases hmem with rfl | hmem
      · exact ⟨k, [], rfl, by simp [entryKeys]⟩
      · exact hnext hmem
termination_by es _ => sizeOf es
decreasing_by all_goals (simp_wf; try omega)

theorem setParts_getParts_skip {k p : String} {w : Json} {rest r' : List (String × Json)}
    {cs : List String} {v : Json} (hne : p ≠ k)
    (hset : setParts (.obj rest) (p :: cs) v = some (.obj r'))
    (hget : getParts (.obj r') (p :: cs) = some v) :
    setParts (.obj ((k, w) :: rest)) (p :: cs) v = some (.obj ((k, w) :: r')) ∧
      getParts (.obj ((k, w) :: r')) (p :: cs) = some v := by
  have hkp : ¬ (k = p) := fun h => hne h.symm
  match cs with
  | [] =>
    simp only [setParts, Json.propSet, Option.some.injEq, Json.obj.injEq] at hset
    constructor
    · simp only [setParts, Json.propSet, Option.some.injEq, Json.obj.injEq,
        setEntry, hkp, if_false]
      rw [hset]
    · simp only [getParts, Json.objectLike, Json.propGet, lookupEntry, hkp, if_false,
        if_true] at hget ⊢
      exact hget
  | c :: cs' =>
    have hchild :
        (Json.obj ((k, w) :: rest)).propGet p = (Json.obj rest).propGet p := by
      simp [Json.propGet, lookupEntry, hkp]
    have hhas : (Json.obj ((k, w) :: rest)).hasProp p = (Json.obj rest).hasProp p := by
      simp [Json.hasProp, lookupEntry, hkp]
    simp only [setParts, Json.objectLike, if_true] at hset ⊢
    rw [hchild, hhas]
    cases hinner :
        setParts
          (match (Json.obj rest).propGet p with
           | some u => if u.typeofObject && (Json.obj rest).hasProp p then u else Json.obj []
           | none => Json.obj []) (c :: cs') v with
    | none =>
      rw [hinner] at hset
      exact absurd hset (by simp)
    | some ch' =>
      rw [hinner] at hset
      simp only [Json.propSet, Option.some.injEq, Json.obj.injEq] at hset
      constructor
      · simp only [Json.propSet, Option.some.injEq, Json.obj.injEq, setEntry, hkp, if_false]
        rw [hset]
      · simp only [getParts, Json.objectLike, Json.propGet, lookupEntry, hkp, if_false,
          if_true] at hget ⊢
        exact hget

/-- Core of the round-trip claim: along any leaf chain of a well-formed
document, the (copy-free) segment walk writes the value and reads it
back, staying inside plain objects the whole way. -/
theorem setParts_getParts_chain :
    ∀ (es : List (String × Json)) (comps : List String) (v : Json),
      wfEntries es = true → comps ∈ flattenComps es →
      ∃ r, setParts (.obj es) comps v = some (.obj r) ∧
        getParts (.obj r) comps = some v
  | [], comps, v, _, hmem => by simp [flattenComps] at hmem
  | (k, w) :: rest, comps, v, hwf, hmem => by
    obtain ⟨hk, hdf, hv, hcont, hrest⟩ := wf_cons hwf
    have hknotin : k ∉ entryKeys rest := by
      intro hmem'
      have hcontra : (entryKeys rest).contains k = true := by simpa using hmem'
      rw [hcont] at hcontra
      exact Bool.false_ne_true hcontra
    have hright : comps ∈ flattenComps rest →
        ∃ r, setParts (.obj ((k, w) :: rest)) comps v = some (.obj r) ∧
          getParts (.obj r) comps = some v := by
      intro hmem'
      obtain ⟨p, cs, rfl, hp⟩ := flattenComps_head rest _ hmem'
      have hne : p ≠ k := fun h => hknotin (h ▸ hp)
      obtain ⟨r', hset', hget'⟩ := setParts_getParts_chain rest (p :: cs) v hrest hmem'
      obtain ⟨h1, h2⟩ := setParts_getParts_skip hne hset' hget'
      exact ⟨(k, w) :: r', h1, h2⟩
    have hhead1 : ∀ u : Json,
        setParts (.obj ((k, u) :: rest)) [k] v = some (.obj ((k, v) :: rest)) ∧
          getParts (.obj ((k, v) :: rest)) [k] = some v := by
      intro u
      constructor
      · simp [setParts, Json.propSet, setEntry]
      · simp [getParts, Json.objectLike, Json.propGet, lookupEntry]
    match w with
    | .obj es' =>
      simp only [flattenComps, List.mem_append, List.mem_map] at hmem
      rcases hmem with ⟨cs, hcs, rfl⟩ | hmem
      · obtain ⟨hcsne, _⟩ := wf_chain es' cs hv hcs
        obtain ⟨c, cs', rfl⟩ := List.exists_cons_of_ne_nil hcsne
        obtain ⟨r', hset', hget'⟩ := setParts_getParts_chain es' (c :: cs') v hv hcs
        refine ⟨(k, .obj r') :: rest, ?_, ?_⟩
        · simp only [setParts, Json.objectLike, if_true, Json.propGet, lookupEntry,
            if_pos rfl, Json.typeofObject, Json.hasProp, Option.isSome_some,
            Bool.and_self, if_true, hset', Json.propSet, setEntry]
        · simp only [getParts, Json.objectLike, if_true, Json.propGet, lookupEntry,
            if_pos rfl]
          simpa [getParts, Json.objectLike, Json.propGet] using hget'
      · exact hright hmem
    | .null =>
      simp only [flattenComps, List.mem_append, List.mem_singleton] at hmem
      rcases hmem with rfl | hmem
      · exact ⟨(k, v) :: rest, hhead1 .null⟩
      · exact hright hmem
    | .bool b =>
      simp only [flattenComps, List.mem_append, List.mem_singleton] at hmem
      rcases hmem with rfl | hmem
      · exact ⟨(k, v) :: rest, hhead1 (.bool b)⟩
      · exact hright hmem
    | .num n =>
      simp only [flattenComps, List.mem_append, List.mem_singleton] at hmem
      rcases hmem with rfl | hmem
      · exact ⟨(k, v) :: rest, hhead1 (.num n)⟩
      · exact hright hmem
    | .str s =>
      simp only [flattenComps, List.mem_append, List.mem_singleton] at hmem
      rcases hmem with rfl | hmem
      · exact ⟨(k, v) :: rest, hhead1 (.str s)⟩
      · exact hright hmem
    | .arr e pr =>
      simp only [flattenComps, List.mem_append, List.mem_singleton] at hmem
      rcases hmem with rfl | hmem
      · exact ⟨(k, v) :: rest, hhead1 (.arr e pr)⟩
      · exact hright hmem
termination_by es _ _ => sizeOf es
decreasing_by all_goals (simp_wf; try omega)

mutual

theorem jsonClone_of_propFree (j : Json) (h : propFree j = true) : jsonClone j = j := by
  match j with
  | .null => simp [jsonClone]
  | .bool b => simp [jsonClone]
  | .num n => simp [jsonClone]
  | .str s => simp [jsonClone]
  | .arr elems props =>
    simp only [propFree, Bool.and_eq_true, List.isEmpty_iff] at h
    simp only [jsonClone, jsonCloneList_of_propFree elems h.2, h.1]
  | .obj es =>
    simp only [propFree] at h
    simp only [jsonClone, jsonCloneEntries_of_propFree es h]
termination_by sizeOf j
decreasing_by all_goals (simp_wf; try omega)

theorem jsonCloneList_of_propFree (l : List Json) (h : propFreeList l = true) :
    jsonCloneList l = l := by
  match l with
  | [] => simp [jsonCloneList]
  | v :: rest =>
    simp only [propFreeList, Bool.and_eq_true] at h
    simp only [jsonCloneList, jsonClone_of_propFree v h.1,
      jsonCloneList_of_propFree rest h.2]
termination_by sizeOf l
decreasing_by all_goals (simp_wf; try omega)

theorem jsonCloneEntries_of_propFree (es : List (String × Json))
    (h : propFreeEntries es = true) : jsonCloneEntries es = es := by
  match es with
  | [] => simp [jsonCloneEntries]
  | (k, v) :: rest =>
    simp only [propFreeEntries, Bool.and_eq_true] at h
    simp only [jsonCloneEntries, jsonClone_of_propFree v h.1,
      jsonCloneEntries_of_propFree rest h.2]
termination_by sizeOf es
decreasing_by all_goals (simp_wf; try omega)

end

theorem wf_propFree :
    ∀ es : List (String × Json), wfEntries es = true → propFreeEntries es = true
  | [], _ => by simp [propFreeEntries]
  | (k, v) :: rest, hwf => by
    obtain ⟨_, _, hv, _, hrest⟩ := wf_cons hwf
    have hrest' := wf_propFree rest hrest
    match v with
    | .obj es' =>
      have hv' : wfEntries es' = true := hv
      simp only [propFreeEntries, propFree, wf_propFree es' hv', hrest', Bool.and_self]
    | .arr elems props =>
      have hv' : propFree (.arr elems props) = true := hv
      simp only [propFreeEntries, hv', hrest', Bool.and_self]
    | .null => simp only [propFreeEntries, propFree, hrest', Bool.and_self]
    | .bool b => simp only [propFreeEntries, propFree, hrest', Bool.and_self]
    | .num n => simp only [propFreeEntries, propFree, hrest', Bool.and_self]
    | .str s => simp only [propFreeEntries, propFree, hrest', Bool.and_self]
termination_by es _ => sizeOf es
decreasing_by all_goals (simp_wf; try omega)

theorem jsonClone_obj_of_wf {es : List (String × Json)} (hwf : wfEntries es = true) :
    jsonClone (Json.obj es) = Json.obj es := by
  exact jsonClone_of_propFree _ (by simp only [propFree]; exact wf_propFree es hwf)

/-- C2 (counterexample): in `D = {"a.b": 1, "a": null}` the path `"a.b"`
is in `flatten(D)` (it names the dotted top-level key), but
`set(D, "a.b", "x")` re-splits the path, descends into the `null` stored
at `"a"` and throws, so `get(set(D, "a.b", "x"), "a.b")` is not `"x"`. -/
theorem get_set_roundtrip_fails_on_dotted_key_null :
    "a.b" ∈ flattenKeys [("a.b", Json.num 1), ("a", Json.null)] "" ∧
    setValueByPath [("a.b", Json.num 1), ("a", Json.null)] "a.b" (Json.str "x") = none ∧
    (setValueByPath [("a.b", Json.num 1), ("a", Json.null)] "a.b" (Json.str "x")).bind
        (fun r => getValueByPath r "a.b") ≠ some (Json.str "x") := by
  refine ⟨?_, ?_, ?_⟩
  · simp [flattenKeys, joinKey]
  · simp [setValueByPath, splitDot, splitDotChars, setParts, jsonClone, jsonCloneEntries,
      jsonClone_of_propFree, Json.objectLike, Json.propGet, Json.propSet, Json.hasProp,
      Json.typeofObject, lookupEntry]
  · simp [setValueByPath, splitDot, splitDotChars, setParts, jsonClone, jsonCloneEntries,
      Json.objectLike, Json.propGet, Json.propSet, Json.hasProp,
      Json.typeofObject, lookupEntry]

/-- C2 (amended): on a well-formed document — keys non-empty, dot-free
and unique at each level, arrays plain JSON — writing any value at any
path of `flatten(D)` succeeds and reading the same path back returns
exactly that value; moreover the deep copy `set` performs on its input
is the identity on such documents, which is the model's witness that the
caller's document is never mutated. -/
theorem get_set_roundtrip :
    ∀ (es : List (String × Json)) (p : String) (v : Json),
      wfEntries es = true → p ∈ flattenKeys es "" →
      (∃ r, setValueByPath es p v = some r ∧ getValueByPath r p = some v) ∧
        jsonClone (Json.obj es) = Json.obj es := by
  intro es p v hwf hp
  refine ⟨?_, jsonClone_obj_of_wf hwf⟩
  obtain ⟨comps, hmem, hjoin, hsplit⟩ := flattenKeys_mem_comps hwf hp
  obtain ⟨r, hset, hget⟩ := setParts_getParts_chain es comps v hwf hmem
  refine ⟨r, ?_, ?_⟩
  · unfold setValueByPath
    rw [jsonClone_obj_of_wf hwf, hsplit, hset]
  · unfold getValueByPath
    rw [hsplit]
    exact hget

/-- C2 (witness): a concrete round trip on `{"a": {"b": "q"}}` at path
`"a.b"`. -/
theorem get_set_roundtrip_witness :
    (∃ r, setValueByPath [("a", Json.obj [("b", Json.str "q")])] "a.b" (Json.str "x") =
        some r ∧ getValueByPath r "a.b" = some (Json.str "x")) ∧
      jsonClone (Json.obj [("a", Json.obj [("b", Json.str "q")])]) =
        Json.obj [("a", Json.obj [("b", Json.str "q")])] := by
  exact get_set_roundtrip [("a", Json.obj [("b", Json.str "q")])] "a.b" (Json.str "x")
    (by simp [wfEntries, dotFree, entryKeys])
    (by simp [flattenKeys, joinKey])

theorem lookupEntry_append (a b : List (String × Json)) (k : String) :
    lookupEntry (a ++ b) k =
      (match lookupEntry a k with
       | some v => some v
       | none => lookupEntry b k) := by
  induction a with
  | nil => simp [lookupEntry]
  | cons e rest ih =>
    obtain ⟨k', v'⟩ := e
    by_cases h : k' = k
    · simp [lookupEntry, h]
    · simp [lookupEntry, h, ih]

theorem setEntry_of_none {a : List (String × Json)} {k : String}
    (h : lookupEntry a k = none) (v : Json) : setEntry a k v = a ++ [(k, v)] := by
  induction a with
  | nil => simp [setEntry]
  | cons e rest ih =>
    obtain ⟨k', v'⟩ := e
    by_cases hk : k' = k
    · simp [lookupEntry, hk] at h
    · simp only [lookupEntry, hk, if_false] at h
      simp [setEntry, hk, ih h]

theorem setEntry_append_of_none {a : List (String × Json)} {k : String}
    (h : lookupEntry a k = none) (x y : Json) :
    setEntry (a ++ [(k, x)]) k y = a ++ [(k, y)] := by
  induction a with
  | nil => simp [setEntry]
  | cons e rest ih =>
    obtain ⟨k', v'⟩ := e
    by_cases hk : k' = k
    · simp [lookupEntry, hk] at h
    · simp only [lookupEntry, hk, if_false] at h
      simp [setEntry, hk, ih h]

theorem propFreeEntries_append (a b : List (String × Json)) :
    propFreeEntries (a ++ b) = (propFreeEntries a && propFreeEntries b) := by
  induction a with
  | nil => simp [propFreeEntries]
  | cons e rest ih =>
    obtain ⟨k, v⟩ := e
    simp [propFreeEntries, ih, Bool.and_assoc]

theorem foldlM_congr_mem {α β : Type} :
    ∀ (l : List α) (f g : β → α → Option β) (b : β),
      (∀ x ∈ l, ∀ acc, f acc x = g acc x) → List.foldlM f b l = List.foldlM g b l
  | [], _, _, _, _ => rfl
  | x :: rest, f, g, b, h => by
    show f b x >>= (fun b' => List.foldlM f b' rest) =
      g b x >>= (fun b' => List.foldlM g b' rest)
    rw [h x (by simp) b]
    cases g b x with
    | none => rfl
    | some b' =>
      show List.foldlM f b' rest = List.foldlM g b' rest
      exact foldlM_congr_mem rest f g b' (fun y hy => h y (by simp [hy]))

theorem foldl_congr_mem {α β : Type} :
    ∀ (l : List α) (f g : β → α → β) (b : β),
      (∀ x ∈ l, ∀ acc, f acc x = g acc x) → List.foldl f b l = List.foldl g b l
  | [], _, _, _, _ => rfl
  | x :: rest, f, g, b, h => by
    simp only [List.foldl_cons, h x (by simp) b]
    exact foldl_congr_mem rest f g (g b x) (fun y hy => h y (by simp [hy]))

theorem ne_cons {k : String} {v : Json} {rest : List (String × Json)}
    (h : neEntries ((k, v) :: rest) = true) :
    (match v with
     | .obj es' => es' ≠ [] ∧ neEntries es' = true
     | _ => True) ∧ neEntries rest = true := by
  match v with
  | .obj es' =>
    simp only [neEntries, Bool.and_eq_true, Bool.not_eq_true'] at h
    refine ⟨⟨?_, h.1.2⟩, h.2⟩
    intro hcontra
    subst hcontra
    simp at h
  | .null => simpa [neEntries] using h
  | .bool b => simpa [neEntries] using h
  | .num n => simpa [neEntries] using h
  | .str s => simpa [neEntries] using h
  | .arr e p => simpa [neEntries] using h

theorem getParts_cons_skip {k p : String} {w : Json} {rest : List (String × Json)}
    {cs : List String} (hne : p ≠ k) :
    getParts (.obj ((k, w) :: rest)) (p :: cs) = getParts (.obj rest) (p :: cs) := by
  have hkp : ¬ (k = p) := fun h => hne h.symm
  simp [getParts, Json.objectLike, Json.propGet, lookupEntry, hkp]

theorem setParts_obj_shape (es : List (String × Json)) (cs : List String) (v : Json)
    (h : cs ≠ []) :
    setParts (.obj es) cs v = none ∨ ∃ y, setParts (.obj es) cs v = some (.obj y) := by
  match cs with
  | [c] => exact Or.inr ⟨setEntry es c v, by simp [setParts, Json.propSet]⟩
  | c :: c' :: cs' =>
    simp only [setParts, Json.objectLike, if_true]
    cases setParts
        (match (Json.obj es).propGet c with
         | some u => if u.typeofObject && (Json.obj es).hasProp c then u else Json.obj []
         | none => Json.obj []) (c' :: cs') v with
    | none => exact Or.inl rfl
    | some j => exact Or.inr ⟨setEntry es c j, by simp [Json.propSet]⟩

theorem findNode_append_of_none {F : List KeyNode} {k : String}
    (h : findNode F k = none) (l : List KeyNode) :
    findNode (F ++ l) k = findNode l k := by
  induction F with
  | nil => simp
  | cons n rest ih =>
    by_cases hn : n.name = k
    · simp [findNode, hn] at h
    · simp only [findNode, hn, if_false] at h
      simp only [List.cons_append, findNode, hn, if_false]
      exact ih h

theorem replaceFirst_append_of_none {F : List KeyNode} {k : String}
    (h : findNode F k = none) (l : List KeyNode) (f : KeyNode → KeyNode) :
    replaceFirst (F ++ l) k f = F ++ replaceFirst l k f := by
  induction F with
  | nil => simp
  | cons n rest ih =>
    by_cases hn : n.name = k
    · simp [findNode, hn] at h
    · simp only [findNode, hn, if_false] at h
      simp only [List.cons_append, replaceFirst, hn, if_false, List.cons.injEq,
        true_and]
      exact ih h

theorem leafPaths_append (a b : List KeyNode) :
    leafPaths (a ++ b) = leafPaths a ++ leafPaths b := by
  induction a with
  | nil => simp [leafPaths]
  | cons n rest ih =>
    obtain ⟨nm, p, lf, ch⟩ := n
    simp [leafPaths, ih, List.append_assoc]

theorem leafPaths_docForest :
    ∀ (es : List (String × Json)) (pre : String),
      leafPaths (docForest es pre) = flattenKeys es pre
  | [], _ => by simp [docForest, flattenKeys, leafPaths]
  | (k, v) :: rest, pre => by
    have hrest := leafPaths_docForest rest pre
    match v with
    | .obj es' =>
      have hes' := leafPaths_docForest es' (joinKey pre k)
      simp [docForest, flattenKeys, leafPaths, hes', hrest]
    | .null => simp [docForest, flattenKeys, leafPaths, hrest]
    | .bool b => simp [docForest, flattenKeys, leafPaths, hrest]
    | .num n => simp [docForest, flattenKeys, leafPaths, hrest]
    | .str s => simp [docForest, flattenKeys, leafPaths, hrest]
    | .arr e p => simp [docForest, flattenKeys, leafPaths, hrest]
termination_by es _ => sizeOf es
decreasing_by all_goals (simp_wf; try omega)

theorem flattenComps_ne_nil :
    ∀ es : List (String × Json), es ≠ [] → neEntries es = true → flattenComps es ≠ []
  | [], h, _ => absurd rfl h
  | (k, v) :: rest, _, hne => by
    obtain ⟨hv, hrest⟩ := ne_cons hne
    match v with
    | .obj es' =>
      have := flattenComps_ne_nil es' hv.1 hv.2
      simp only [flattenComps, ne_eq, List.append_eq_nil, List.map_eq_nil_iff, not_and]
      intro hcontra
      exact absurd hcontra this
    | .null => simp [flattenComps]
    | .bool b => simp [flattenComps]
    | .num n => simp [flattenComps]
    | .str s => simp [flattenComps]
    | .arr e p => simp [flattenComps]
termination_by es _ _ => sizeOf es
decreasing_by all_goals (simp_wf; try omega)

theorem fold_insert_group :
    ∀ (chains : List (List String)) (k pre : String) (F : List KeyNode)
      (ch : List KeyNode),
      (∀ c ∈ chains, c ≠ []) → findNode F k = none →
      List.foldl (fun forest comps => insertPath forest comps pre)
          (F ++ [⟨k, joinKey pre k, false, ch⟩]) (chains.map (fun c => k :: c)) =
        F ++ [⟨k, joinKey pre k, false,
          List.foldl (fun forest comps => insertPath forest comps (joinKey pre k)) ch chains⟩]
  | [], k, pre, F, ch, _, _ => by simp
  | c :: cs, k, pre, F, ch, hne, hF => by
    have hc : c ≠ [] := hne c (by simp)
    have hfind : findNode (F ++ [⟨k, joinKey pre k, false, ch⟩]) k =
        some ⟨k, joinKey pre k, false, ch⟩ := by
      rw [findNode_append_of_none hF]
      simp [findNode]
    have hrepl : ∀ f, replaceFirst (F ++ [⟨k, joinKey pre k, false, ch⟩]) k f =
        F ++ [f ⟨k, joinKey pre k, false, ch⟩] := by
      intro f
      rw [replaceFirst_append_of_none hF]
      simp [replaceFirst]
    have hstep : insertPath (F ++ [⟨k, joinKey pre k, false, ch⟩]) (k :: c) pre =
        F ++ [⟨k, joinKey pre k, false, insertPath ch c (joinKey pre k)⟩] := by
      obtain ⟨c₀, c', rfl⟩ := List.exists_cons_of_ne_nil hc
      simp only [insertPath, hfind, List.isEmpty_cons, Bool.false_eq_true, if_false]
      exact hrepl _
    simp only [List.map_cons, List.foldl_cons, hstep]
    rw [fold_insert_group cs k pre F (insertPath ch c (joinKey pre k))
      (fun x hx => hne x (by simp [hx])) hF]

theorem fold_insert_flatten :
    ∀ (es : List (String × Json)) (pre : String) (F : List KeyNode),
      wfEntries es = true → neEntries es = true →
      (∀ kk ∈ entryKeys es, findNode F kk = none) →
      List.foldl (fun forest comps => insertPath forest comps pre) F (flattenComps es) =
        F ++ docForest es pre
  | [], pre, F, _, _, _ => by simp [flattenComps, docForest]
  | (k, w) :: rest, pre, F, hwf, hne, hdisj => by
    obtain ⟨hk, hdf, hv, hcont, hrest⟩ := wf_cons hwf
    obtain ⟨hnv, hnrest⟩ := ne_cons hne
    have hkF : findNode F k = none := hdisj k (by
      rw [show entryKeys ((k, w) :: rest) = k :: entryKeys rest from rfl]
      simp)
    have hdisj' : ∀ n : KeyNode, n.name = k →
        ∀ kk ∈ entryKeys rest, findNode (F ++ [n]) kk = none := by
      intro n hn kk hkk
      have hkk' : kk ∈ entryKeys ((k, w) :: rest) := by
        rw [show entryKeys ((k, w) :: rest) = k :: entryKeys rest from rfl]
        exact List.mem_cons_of_mem _ hkk
      rw [findNode_append_of_none (hdisj kk hkk')]
      have : k ≠ kk := by
        intro hcontra
        subst hcontra
        have hcontra2 : (entryKeys rest).contains k = true := by simpa using hkk
        rw [hcont] at hcontra2
        exact Bool.false_ne_true hcontra2
      simp [findNode, hn, this]
    match w with
    | .obj es' =>
      have hv' : wfEntries es' = true := hv
      have hnv' : es' ≠ [] ∧ neEntries es' = true := hnv
      have hchne : flattenComps es' ≠ [] := flattenComps_ne_nil es' hnv'.1 hnv'.2
      obtain ⟨c₀, cs, hchains⟩ := List.exists_cons_of_ne_nil hchne
      have helemne : ∀ c ∈ flattenComps es', c ≠ [] := by
        intro c hcmem
        exact (wf_chain es' c hv' hcmem).1
      have hc₀ : c₀ ≠ [] := helemne c₀ (by rw [hchains]; simp)
      obtain ⟨p₀, ps, rfl⟩ := List.exists_cons_of_ne_nil hc₀
      have hfirst : insertPath F (k :: p₀ :: ps) pre =
          F ++ [⟨k, joinKey pre k, false, insertPath [] (p₀ :: ps) (joinKey pre k)⟩] := by
        simp [insertPath, hkF]
      have hinner :
          List.foldl (fun forest comps => insertPath forest comps (joinKey pre k))
            [] (flattenComps es') = docForest es' (joinKey pre k) := by
        have := fold_insert_flatten es' (joinKey pre k) [] hv' hnv'.2
          (fun kk _ => by simp [findNode])
        simpa using this
      simp only [flattenComps, List.foldl_append, List.map_cons, List.foldl_cons, hchains,
        hfirst]
      rw [fold_insert_group cs k pre F _
        (fun x hx => helemne x (by rw [hchains]; simp [hx])) hkF]
      rw [show List.foldl (fun forest comps => insertPath forest comps (joinKey pre k))
          (insertPath [] (p₀ :: ps) (joinKey pre k)) cs =
        List.foldl (fun forest comps => insertPath forest comps (joinKey pre k))
          [] (flattenComps es') from by rw [hchains]; simp]
      rw [hinner]
      rw [fold_insert_flatten rest pre
        (F ++ [⟨k, joinKey pre k, false, docForest es' (joinKey pre k)⟩]) hrest hnrest
        (hdisj' _ rfl)]
      simp [docForest]
    | .null =>
      have hfirst : insertPath F [k] pre = F ++ [⟨k, joinKey pre k, true, []⟩] := by
        simp [insertPath, hkF]
      simp only [flattenComps, List.singleton_append, List.foldl_cons, hfirst]
      rw [fold_insert_flatten rest pre (F ++ [⟨k, joinKey pre k, true, []⟩]) hrest hnrest
        (hdisj' _ rfl)]
      simp [docForest]
    | .bool b =>
      have hfirst : insertPath F [k] pre = F ++ [⟨k, joinKey pre k, true, []⟩] := by
        simp [insertPath, hkF]
      simp only [flattenComps, List.singleton_append, List.foldl_cons, hfirst]
      rw [fold_insert_flatten rest pre (F ++ [⟨k, joinKey pre k, true, []⟩]) hrest hnrest
        (hdisj' _ rfl)]
      simp [docForest]
    | .num n =>
      have hfirst : insertPath F [k] pre = F ++ [⟨k, joinKey pre k, true, []⟩] := by
        simp [insertPath, hkF]
      simp only [flattenComps, List.singleton_append, List.foldl_cons, hfirst]
      rw [fold_insert_flatten rest pre (F ++ [⟨k, joinKey pre k, true, []⟩]) hrest hnrest
        (hdisj' _ rfl)]
      simp [docForest]
    | .str s =>
      have hfirst : insertPath F [k] pre = F ++ [⟨k, joinKey pre k, true, []⟩] := by
        simp [insertPath, hkF]
      simp only [flattenComps, List.singleton_append, List.foldl_cons, hfirst]
      rw [fold_insert_flatten rest pre (F ++ [⟨k, joinKey pre k, true, []⟩]) hrest hnrest
        (hdisj' _ rfl)]
      simp [docForest]
    | .arr e p =>
      have hfirst : insertPath F [k] pre = F ++ [⟨k, joinKey pre k, true, []⟩] := by
        simp [insertPath, hkF]
      simp only [flattenComps, List.singleton_append, List.foldl_cons, hfirst]
      rw [fold_insert_flatten rest pre (F ++ [⟨k, joinKey pre k, true, []⟩]) hrest hnrest
        (hdisj' _ rfl)]
      simp [docForest]
termination_by es _ _ => sizeOf es
decreasing_by all_goals (simp_wf; try omega)

theorem buildKeyTree_eq_docForest {es : List (String × Json)}
    (hwf : wfEntries es = true) (hne : neEntries es = true) :
    buildKeyTree (flattenKeys es "") = docForest es "" := by
  unfold buildKeyTree
  rw [flattenKeys_eq_comps es "", List.foldl_map]
  rw [foldl_congr_mem (flattenComps es)
    (fun forest comps => insertPath forest (splitDot (comps.foldl joinKey "")) "")
    (fun forest comps => insertPath forest comps "") []
    (by
      intro comps hmem acc
      obtain ⟨hcne, hfacts⟩ := wf_chain es comps hwf hmem
      show insertPath acc (splitDot (comps.foldl joinKey "")) "" = insertPath acc comps ""
      rw [foldl_joinKey_empty comps hcne (fun s hs => (hfacts s hs).1),
        splitDot_dotJoin comps hcne (fun s hs => (hfacts s hs).2)])]
  have := fold_insert_flatten es "" [] hwf hne (fun kk _ => by simp [findNode])
  simpa using this

theorem ctxKeys_append (ctx : List (List (String × Json) × String))
    (base : List (String × Json)) (k : String) :
    ctxKeys (ctx ++ [(base, k)]) = ctxKeys ctx ++ [k] := by
  simp [ctxKeys]

theorem ctxWrap_append :
    ∀ (ctx : List (List (String × Json) × String)) (base : List (String × Json))
      (k : String) (doc : List (String × Json)),
      ctxWrap (ctx ++ [(base, k)]) doc = ctxWrap ctx (base ++ [(k, Json.obj doc)])
  | [], base, k, doc => by simp [ctxWrap]
  | (b, k') :: rest, base, k, doc => by
    simp only [List.cons_append, ctxWrap, List.append_eq, ctxWrap_append rest base k doc]

theorem ctxOK_append :
    ∀ (ctx : List (List (String × Json) × String)) (base : List (String × Json))
      (k : String),
      ctxOK ctx = true → propFreeEntries base = true → lookupEntry base k = none →
      ctxOK (ctx ++ [(base, k)]) = true
  | [], base, k, _, hpf, hlk => by simp [ctxOK, hpf, hlk]
  | (b, k') :: rest, base, k, hok, hpf, hlk => by
    simp only [ctxOK, Bool.and_eq_true, Option.isNone_iff_eq_none] at hok
    simp only [List.cons_append, ctxOK, Bool.and_eq_true, Option.isNone_iff_eq_none]
    exact ⟨⟨hok.1.1, hok.1.2⟩, ctxOK_append rest base k hok.2 hpf hlk⟩

theorem propFree_ctxWrap :
    ∀ (ctx : List (List (String × Json) × String)) (doc : List (String × Json)),
      ctxOK ctx = true → propFreeEntries doc = true →
      propFreeEntries (ctxWrap ctx doc) = true
  | [], doc, _, hdoc => hdoc
  | (b, k) :: rest, doc, hok, hdoc => by
    simp only [ctxOK, Bool.and_eq_true, Option.isNone_iff_eq_none] at hok
    have hin := propFree_ctxWrap rest doc hok.2 hdoc
    simp only [ctxWrap, propFreeEntries_append, Bool.and_eq_true]
    refine ⟨hok.1.1, ?_⟩
    simp [propFreeEntries, propFree, hin]

theorem setParts_step_obj {es ch : List (String × Json)} {k : String}
    (hlk : lookupEntry es k = some (.obj ch)) (cs : List String) (hcs : cs ≠ [])
    (v : Json) :
    setParts (.obj es) (k :: cs) v =
      (match setParts (.obj ch) cs v with
       | none => none
       | some j => some (.obj (setEntry es k j))) := by
  obtain ⟨c, cs', rfl⟩ := List.exists_cons_of_ne_nil hcs
  simp only [setParts, Json.objectLike, if_true, Json.propGet, hlk, Json.typeofObject,
    Json.hasProp, Option.isSome_some, Bool.and_self, if_true]
  cases setParts (.obj ch) (c :: cs') v with
  | none => rfl
  | some j => simp [Json.propSet]

theorem setParts_step_fresh {es : List (String × Json)} {k : String}
    (hlk : lookupEntry es k = none) (cs : List String) (hcs : cs ≠ [])
    (v : Json) :
    setParts (.obj es) (k :: cs) v =
      (match setParts (.obj []) cs v with
       | none => none
       | some j => some (.obj (setEntry es k j))) := by
  obtain ⟨c, cs', rfl⟩ := List.exists_cons_of_ne_nil hcs
  simp only [setParts, Json.objectLike, if_true, Json.propGet, hlk]
  cases setParts (.obj []) (c :: cs') v with
  | none => rfl
  | some j => simp [Json.propSet]

theorem setParts_ctx :
    ∀ (ctx : List (List (String × Json) × String)) (done : List (String × Json))
      (cs : List String) (v : Json),
      ctxOK ctx = true → cs ≠ [] →
      (setParts (.obj done) cs v = none →
        setParts (.obj (ctxWrap ctx done)) (ctxKeys ctx ++ cs) v = none) ∧
      (∀ y, setParts (.obj done) cs v = some (.obj y) →
        setParts (.obj (ctxWrap ctx done)) (ctxKeys ctx ++ cs) v =
          some (.obj (ctxWrap ctx y)))
  | [], done, cs, v, _, _ => by
    constructor
    · intro h
      simpa [ctxKeys, ctxWrap] using h
    · intro y h
      simpa [ctxKeys, ctxWrap] using h
  | (b, k) :: rest, done, cs, v, hok, hcs => by
    simp only [ctxOK, Bool.and_eq_true, Option.isNone_iff_eq_none] at hok
    have hih := setParts_ctx rest done cs v hok.2 hcs
    have htail : ctxKeys rest ++ cs ≠ [] := by
      intro h
      exact hcs (List.append_eq_nil.mp h).2
    have hlk : lookupEntry (b ++ [(k, Json.obj (ctxWrap rest done))]) k =
        some (.obj (ctxWrap rest done)) := by
      rw [lookupEntry_append]
      simp [hok.1.2, lookupEntry]
    have hstep := setParts_step_obj hlk (ctxKeys rest ++ cs) htail v
    have hkeys : ctxKeys ((b, k) :: rest) ++ cs = k :: (ctxKeys rest ++ cs) := by
      simp [ctxKeys]
    constructor
    · intro h
      rw [hkeys]
      show setParts (.obj (b ++ [(k, Json.obj (ctxWrap rest done))]))
        (k :: (ctxKeys rest ++ cs)) v = none
      rw [hstep, hih.1 h]
    · intro y h
      rw [hkeys]
      show setParts (.obj (b ++ [(k, Json.obj (ctxWrap rest done))]))
        (k :: (ctxKeys rest ++ cs)) v = some (.obj (ctxWrap ((b, k) :: rest) y))
      rw [hstep, hih.2 y h]
      show some (Json.obj (setEntry (b ++ [(k, Json.obj (ctxWrap rest done))]) k
        (Json.obj (ctxWrap rest y)))) = _
      rw [setEntry_append_of_none hok.1.2]
      rfl

theorem flattenLeaves_fst :
    ∀ es : List (String × Json), (flattenLeaves es).map Prod.fst = flattenComps es
  | [] => by simp [flattenLeaves, flattenComps]
  | (k, v) :: rest => by
    have hrest := flattenLeaves_fst rest
    match v with
    | .obj es' =>
      have hes' := flattenLeaves_fst es'
      simp only [flattenLeaves, flattenComps, List.map_append, List.map_map, hrest, ← hes']
      rfl
    | .null => simp [flattenLeaves, flattenComps, hrest]
    | .bool b => simp [flattenLeaves, flattenComps, hrest]
    | .num n => simp [flattenLeaves, flattenComps, hrest]
    | .str s => simp [flattenLeaves, flattenComps, hrest]
    | .arr e p => simp [flattenLeaves, flattenComps, hrest]
termination_by es => sizeOf es
decreasing_by all_goals (simp_wf; try omega)

theorem getParts_cons_head {es : List (String × Json)} {k : String} {u : Json}
    (hlk : lookupEntry es k = some u) (cs : List String) :
    getParts (.obj es) (k :: cs) = getParts u cs := by
  simp [getParts, Json.objectLike, Json.propGet, hlk]

theorem flattenLeaves_value :
    ∀ es : List (String × Json), wfEntries es = true →
      ∀ e ∈ flattenLeaves es, getParts (.obj es) e.1 = some e.2
  | [], _, e, hmem => by simp [flattenLeaves] at hmem
  | (k, w) :: rest, hwf, e, hmem => by
    obtain ⟨hk, hdf, hv, hcont, hrest⟩ := wf_cons hwf
    have htail : e ∈ flattenLeaves rest → getParts (.obj ((k, w) :: rest)) e.1 = some e.2 := by
      intro hmem'
      have hfst : e.1 ∈ flattenComps rest := by
        rw [← flattenLeaves_fst]
        exact List.mem_map_of_mem _ hmem'
      obtain ⟨p, cs, hcons, hp⟩ := flattenComps_head rest e.1 hfst
      have hne : p ≠ k := by
        intro hcontra
        subst hcontra
        have hcontra2 : (entryKeys rest).contains p = true := by simpa using hp
        rw [hcont] at hcontra2
        exact Bool.false_ne_true hcontra2
      rw [hcons, getParts_cons_skip hne, ← hcons]
      exact flattenLeaves_value rest hrest e hmem'
    match w with
    | .obj es' =>
      have hv' : wfEntries es' = true := hv
      simp only [flattenLeaves, List.mem_append, List.mem_map] at hmem
      rcases hmem with ⟨e', hmem', rfl⟩ | hmem'
      · have := flattenLeaves_value es' hv' e' hmem'
        have hstep : getParts (.obj ((k, Json.obj es') :: rest)) (k :: e'.1) =
            getParts (Json.obj es') e'.1 :=
          getParts_cons_head (by simp [lookupEntry]) e'.1
        rw [show ((k :: e'.1, e'.2) : List String × Json).1 = k :: e'.1 from rfl, hstep]
        exact this
      · exact htail hmem'
    | .null =>
      simp only [flattenLeaves, List.mem_append, List.mem_singleton] at hmem
      rcases hmem with rfl | hmem'
      · simp [getParts, Json.objectLike, Json.propGet, lookupEntry]
      · exact htail hmem'
    | .bool b =>
      simp only [flattenLeaves, List.mem_append, List.mem_singleton] at hmem
      rcases hmem with rfl | hmem'
      · simp [getParts, Json.objectLike, Json.propGet, lookupEntry]
      · exact htail hmem'
    | .num n =>
      simp only [flattenLeaves, List.mem_append, List.mem_singleton] at hmem
      rcases hmem with rfl | hmem'
      · simp [getParts, Json.objectLike, Json.propGet, lookupEntry]
      · exact htail hmem'
    | .str s =>
      simp only [flattenLeaves, List.mem_append, List.mem_singleton] at hmem
      rcases hmem with rfl | hmem'
      · simp [getParts, Json.objectLike, Json.propGet, lookupEntry]
      · exact htail hmem'
    | .arr el pr =>
      simp only [flattenLeaves, List.mem_append, List.mem_singleton] at hmem
      rcases hmem with rfl | hmem'
      · simp [getParts, Json.objectLike, Json.propGet, lookupEntry]
      · exact htail hmem'
termination_by es _ _ _ => sizeOf es
decreasing_by all_goals (simp_wf; try omega)

theorem flattenLeaves_ne_nil :
    ∀ es : List (String × Json), es ≠ [] → neEntries es = true → flattenLeaves es ≠ []
  | [], h, _ => absurd rfl h
  | (k, v) :: rest, _, hne => by
    obtain ⟨hv, hrest⟩ := ne_cons hne
    match v with
    | .obj es' =>
      have := flattenLeaves_ne_nil es' hv.1 hv.2
      simp only [flattenLeaves, ne_eq, List.append_eq_nil, List.map_eq_nil_iff, not_and]
      intro hcontra
      exact absurd hcontra this
    | .null => simp [flattenLeaves]
    | .bool b => simp [flattenLeaves]
    | .num n => simp [flattenLeaves]
    | .str s => simp [flattenLeaves]
    | .arr e p => simp [flattenLeaves]
termination_by es _ _ => sizeOf es
decreasing_by all_goals (simp_wf; try omega)

theorem objSet_of_propFree {a : List (String × Json)} (hpf : propFreeEntries a = true)
    (comps : List String) (v : Json) :
    objSet a comps v =
      (match setParts (.obj a) comps v with
       | some (.obj r) => some r
       | _ => none) := by
  unfold objSet
  rw [jsonClone_of_propFree (Json.obj a) (by simpa [propFree] using hpf)]

theorem setParts_fresh_eq_present {done : List (String × Json)} {k : String}
    (hlk : lookupEntry done k = none) (cs : List String) (hcs : cs ≠ []) (v : Json) :
    setParts (.obj done) (k :: cs) v =
      setParts (.obj (done ++ [(k, Json.obj [])])) (k :: cs) v := by
  have hlk2 : lookupEntry (done ++ [(k, Json.obj [])]) k = some (.obj []) := by
    rw [lookupEntry_append]
    simp [hlk, lookupEntry]
  rw [setParts_step_fresh hlk cs hcs v, setParts_step_obj hlk2 cs hcs v]
  cases setParts (.obj []) cs v with
  | none => rfl
  | some j => simp [setEntry_of_none hlk, setEntry_append_of_none hlk]

theorem objSet_ctx_eq {ctx : List (List (String × Json) × String)}
    {done : List (String × Json)} {cs : List String} (v : Json)
    (hok : ctxOK ctx = true) (hpf : propFreeEntries done = true) (hcs : cs ≠ []) :
    objSet (ctxWrap ctx done) (ctxKeys ctx ++ cs) v =
      (match setParts (.obj done) cs v with
       | some (.obj y) => some (ctxWrap ctx y)
       | _ => none) := by
  have hwrap := propFree_ctxWrap ctx done hok hpf
  rw [objSet_of_propFree hwrap]
  obtain ⟨h1, h2⟩ := setParts_ctx ctx done cs v hok hcs
  rcases setParts_obj_shape done cs v hcs with h | ⟨y, h⟩
  · rw [h1 h, h]
  · rw [h2 y h, h]

theorem foldlM_append_opt {α β : Type} :
    ∀ (l₁ l₂ : List α) (f : β → α → Option β) (b : β),
      List.foldlM f b (l₁ ++ l₂) =
        (List.foldlM f b l₁).bind (fun b' => List.foldlM f b' l₂)
  | [], l₂, f, b => by simp
  | x :: rest, l₂, f, b => by
    show (f b x >>= fun b' => List.foldlM f b' (rest ++ l₂)) =
      ((f b x >>= fun b' => List.foldlM f b' rest).bind fun b' => List.foldlM f b' l₂)
    cases hfx : f b x with
    | none => simp
    | some b' => simp [foldlM_append_opt rest l₂ f b']

theorem foldlM_map_opt {α γ β : Type} :
    ∀ (l : List α) (g : α → γ) (f : β → γ → Option β) (b : β),
      List.foldlM f b (l.map g) = List.foldlM (fun x y => f x (g y)) b l
  | [], _, _, _ => rfl
  | x :: rest, g, f, b => by
    show (f b (g x) >>= fun b' => List.foldlM f b' (rest.map g)) =
      (f b (g x) >>= fun b' => List.foldlM (fun x y => f x (g y)) b' rest)
    cases hfx : f b (g x) with
    | none => simp
    | some b' => simp [foldlM_map_opt rest g f b']

/-- Core of the rebuild claim: folding the leaf writes of a well-formed,
empty-object-free document into the hole of any sane context rebuilds
the document entry by entry, in order. -/
theorem rebuild_core :
    ∀ (es : List (String × Json)) (ctx : List (List (String × Json) × String))
      (done : List (String × Json)),
      wfEntries es = true → neEntries es = true → ctxOK ctx = true →
      propFreeEntries done = true →
      (∀ kk ∈ entryKeys es, lookupEntry done kk = none) →
      List.foldlM (fun a (e : List String × Json) => objSet a (ctxKeys ctx ++ e.1) e.2)
          (ctxWrap ctx done) (flattenLeaves es) =
        some (ctxWrap ctx (done ++ es))
  | [], ctx, done, _, _, _, _, _ => by simp [flattenLeaves]
  | (k, w) :: rest, ctx, done, hwf, hne, hok, hpfd, hdisj => by
    obtain ⟨hk, hdf, hv, hcont, hrest⟩ := wf_cons hwf
    obtain ⟨hnv, hnrest⟩ := ne_cons hne
    have hdk : lookupEntry done k = none := hdisj k (by
      rw [show entryKeys ((k, w) :: rest) = k :: entryKeys rest from rfl]
      simp)
    have hdisj' : ∀ x : Json, ∀ kk ∈ entryKeys rest,
        lookupEntry (done ++ [(k, x)]) kk = none := by
      intro x kk hkk
      have hkkfull : kk ∈ entryKeys ((k, w) :: rest) := by
        rw [show entryKeys ((k, w) :: rest) = k :: entryKeys rest from rfl]
        exact List.mem_cons_of_mem _ hkk
      have hkne : k ≠ kk := by
        intro hcontra
        subst hcontra
        have hcontra2 : (entryKeys rest).contains k = true := by simpa using hkk
        rw [hcont] at hcontra2
        exact Bool.false_ne_true hcontra2
      rw [lookupEntry_append, hdisj kk hkkfull]
      simp [lookupEntry, hkne]
    match w with
    | .obj es' =>
      have hv' : wfEntries es' = true := hv
      have hnv' : es' ≠ [] ∧ neEntries es' = true := hnv
      have hpfes' : propFreeEntries es' = true := wf_propFree es' hv'
      have hpfd' : propFreeEntries (done ++ [(k, Json.obj es')]) = true := by
        simp [propFreeEntries_append, hpfd, propFreeEntries, propFree, hpfes']
      have hpfd0 : propFreeEntries (done ++ [(k, Json.obj [])]) = true := by
        simp [propFreeEntries_append, hpfd, propFreeEntries, propFree]
      have hok' : ctxOK (ctx ++ [(done, k)]) = true := ctxOK_append ctx done k hok hpfd hdk
      have hlne : flattenLeaves es' ≠ [] := flattenLeaves_ne_nil es' hnv'.1 hnv'.2
      obtain ⟨e₀, tl, hsplit⟩ := List.exists_cons_of_ne_nil hlne
      have helemne : ∀ e : List String × Json, e ∈ flattenLeaves es' → e.1 ≠ [] := by
        intro e hmem
        have : e.1 ∈ flattenComps es' := by
          rw [← flattenLeaves_fst]
          exact List.mem_map_of_mem _ hmem
        exact (wf_chain es' e.1 hv' this).1
      have hinner :
          List.foldlM
              (fun a (e : List String × Json) =>
                objSet a (ctxKeys (ctx ++ [(done, k)]) ++ e.1) e.2)
              (ctxWrap (ctx ++ [(done, k)]) []) (flattenLeaves es') =
            some (ctxWrap (ctx ++ [(done, k)]) es') := by
        have := rebuild_core es' (ctx ++ [(done, k)]) [] hv' hnv'.2 hok'
          (by simp [propFreeEntries]) (fun kk _ => by simp [lookupEntry])
        simpa using this
      have hfun : (fun a (e : List String × Json) =>
            objSet a (ctxKeys (ctx ++ [(done, k)]) ++ e.1) e.2) =
          (fun a (e : List String × Json) => objSet a (ctxKeys ctx ++ k :: e.1) e.2) := by
        funext a e
        rw [ctxKeys_append]
        simp
      have hwrap0 : ctxWrap (ctx ++ [(done, k)]) [] =
          ctxWrap ctx (done ++ [(k, Json.obj [])]) := ctxWrap_append ctx done k []
      have hstep0 : objSet (ctxWrap ctx done) (ctxKeys ctx ++ k :: e₀.1) e₀.2 =
          objSet (ctxWrap ctx (done ++ [(k, Json.obj [])])) (ctxKeys ctx ++ k :: e₀.1)
            e₀.2 := by
        rw [objSet_ctx_eq e₀.2 hok hpfd (by simp),
          objSet_ctx_eq e₀.2 hok hpfd0 (by simp)]
        rw [setParts_fresh_eq_present hdk e₀.1 (helemne e₀ (by rw [hsplit]; simp)) e₀.2]
      have hgroup :
          List.foldlM (fun a (e : List String × Json) => objSet a (ctxKeys ctx ++ e.1) e.2)
              (ctxWrap ctx done) ((flattenLeaves es').map (fun e => (k :: e.1, e.2))) =
            some (ctxWrap ctx (done ++ [(k, Json.obj es')])) := by
        rw [foldlM_map_opt]
        rw [show (fun (x : List (String × Json)) (y : List String × Json) =>
            objSet x (ctxKeys ctx ++ (k :: y.1, y.2).1) (k :: y.1, y.2).2) =
          (fun a (e : List String × Json) => objSet a (ctxKeys ctx ++ k :: e.1) e.2)
          from rfl]
        rw [hsplit]
        show objSet (ctxWrap ctx done) (ctxKeys ctx ++ k :: e₀.1) e₀.2 >>=
          (fun a => List.foldlM
            (fun a (e : List String × Json) => objSet a (ctxKeys ctx ++ k :: e.1) e.2)
            a tl) = _
        rw [hstep0]
        have hr :
            List.foldlM
                (fun a (e : List String × Json) => objSet a (ctxKeys ctx ++ k :: e.1) e.2)
                (ctxWrap ctx (done ++ [(k, Json.obj [])])) (e₀ :: tl) =
              some (ctxWrap ctx (done ++ [(k, Json.obj es')])) := by
          rw [← hsplit, ← hfun, ← hwrap0, hinner, ctxWrap_append]
        exact hr
      rw [show flattenLeaves ((k, Json.obj es') :: rest) =
          ((flattenLeaves es').map (fun e => (k :: e.1, e.2))) ++ flattenLeaves rest
        from by simp [flattenLeaves]]
      rw [foldlM_append_opt, hgroup]
      show List.foldlM
          (fun a (e : List String × Json) => objSet a (ctxKeys ctx ++ e.1) e.2)
          (ctxWrap ctx (done ++ [(k, Json.obj es')])) (flattenLeaves rest) = _
      rw [rebuild_core rest ctx (done ++ [(k, Json.obj es')]) hrest hnrest hok hpfd'
        (hdisj' (Json.obj es'))]
      simp
    | .null =>
      have hpfw : propFree (Json.null) = true := by simp [propFree]
      have hpfd' : propFreeEntries (done ++ [(k, Json.null)]) = true := by
        simp [propFreeEntries_append, hpfd, propFreeEntries, hpfw]
      have hlf : flattenLeaves ((k, Json.null) :: rest) =
          ([k], Json.null) :: flattenLeaves rest := by
        simp [flattenLeaves]
      rw [hlf]
      show objSet (ctxWrap ctx done) (ctxKeys ctx ++ [k]) (Json.null) >>=
        (fun a => List.foldlM
          (fun a (e : List String × Json) => objSet a (ctxKeys ctx ++ e.1) e.2)
          a (flattenLeaves rest)) = _
      rw [objSet_ctx_eq (Json.null) hok hpfd (by simp)]
      rw [show setParts (.obj done) [k] (Json.null) =
        some (.obj (setEntry done k (Json.null))) from by simp [setParts, Json.propSet]]
      rw [setEntry_of_none hdk]
      show List.foldlM
          (fun a (e : List String × Json) => objSet a (ctxKeys ctx ++ e.1) e.2)
          (ctxWrap ctx (done ++ [(k, Json.null)])) (flattenLeaves rest) = _
      rw [rebuild_core rest ctx (done ++ [(k, Json.null)]) hrest hnrest hok hpfd'
        (hdisj' (Json.null))]
      simp
    | .bool b =>
      have hpfw : propFree (Json.bool b) = true := by simp [propFree]
      have hpfd' : propFreeEntries (done ++ [(k, Json.bool b)]) = true := by
        simp [propFreeEntries_append, hpfd, propFreeEntries, hpfw]
      have hlf : flattenLeaves ((k, Json.bool b) :: rest) =
          ([k], Json.bool b) :: flattenLeaves rest := by
        simp [flattenLeaves]
      rw [hlf]
      show objSet (ctxWrap ctx done) (ctxKeys ctx ++ [k]) (Json.bool b) >>=
        (fun a => List.foldlM
          (fun a (e : List String × Json) => objSet a (ctxKeys ctx ++ e.1) e.2)
          a (flattenLeaves rest)) = _
      rw [objSet_ctx_eq (Json.bool b) hok hpfd (by simp)]
      rw [show setParts (.obj done) [k] (Json.bool b) =
        some (.obj (setEntry done k (Json.bool b))) from by simp [setParts, Json.propSet]]
      rw [setEntry_of_none hdk]
      show List.foldlM
          (fun a (e : List String × Json) => objSet a (ctxKeys ctx ++ e.1) e.2)
          (ctxWrap ctx (done ++ [(k, Json.bool b)])) (flattenLeaves rest) = _
      rw [rebuild_core rest ctx (done ++ [(k, Json.bool b)]) hrest hnrest hok hpfd'
        (hdisj' (Json.bool b))]
      simp
    | .num n =>
      have hpfw : propFree (Json.num n) = true := by simp [propFree]
      have hpfd' : propFreeEntries (done ++ [(k, Json.num n)]) = true := by
        simp [propFreeEntries_append, hpfd, propFreeEntries, hpfw]
      have hlf : flattenLeaves ((k, Json.num n) :: rest) =
          ([k], Json.num n) :: flattenLeaves rest := by
        simp [flattenLeaves]
      rw [hlf]
      show objSet (ctxWrap ctx done) (ctxKeys ctx ++ [k]) (Json.num n) >>=
        (fun a => List.foldlM
          (fun a (e : List String × Json) => objSet a (ctxKeys ctx ++ e.1) e.2)
          a (flattenLeaves rest)) = _
      rw [objSet_ctx_eq (Json.num n) hok hpfd (by simp)]
      rw [show setParts (.obj done) [k] (Json.num n) =
        some (.obj (setEntry done k (Json.num n))) from by simp [setParts, Json.propSet]]
      rw [setEntry_of_none hdk]
      show List.foldlM
          (fun a (e : List String × Json) => objSet a (ctxKeys ctx ++ e.1) e.2)
          (ctxWrap ctx (done ++ [(k, Json.num n)])) (flattenLeaves rest) = _
      rw [rebuild_core rest ctx (done ++ [(k, Json.num n)]) hrest hnrest hok hpfd'
        (hdisj' (Json.num n))]
      simp
    | .str sv =>
      have hpfw : propFree (Json.str sv) = true := by simp [propFree]
      have hpfd' : propFreeEntries (done ++ [(k, Json.str sv)]) = true := by
        simp [propFreeEntries_append, hpfd, propFreeEntries, hpfw]
      have hlf : flattenLeaves ((k, Json.str sv) :: rest) =
          ([k], Json.str sv) :: flattenLeaves rest := by
        simp [flattenLeaves]
      rw [hlf]
      show objSet (ctxWrap ctx done) (ctxKeys ctx ++ [k]) (Json.str sv) >>=
        (fun a => List.foldlM
          (fun a (e : List String × Json) => objSet a (ctxKeys ctx ++ e.1) e.2)
          a (flattenLeaves rest)) = _
      rw [objSet_ctx_eq (Json.str sv) hok hpfd (by simp)]
      rw [show setParts (.obj done) [k] (Json.str sv) =
        some (.obj (setEntry done k (Json.str sv))) from by simp [setParts, Json.propSet]]
      rw [setEntry_of_none hdk]
      show List.foldlM
          (fun a (e : List String × Json) => objSet a (ctxKeys ctx ++ e.1) e.2)
          (ctxWrap ctx (done ++ [(k, Json.str sv)])) (flattenLeaves rest) = _
      rw [rebuild_core rest ctx (done ++ [(k, Json.str sv)]) hrest hnrest hok hpfd'
        (hdisj' (Json.str sv))]
      simp
    | .arr el pr =>
      have hpfw : propFree (Json.arr el pr) = true := hv
      have hpfd' : propFreeEntries (done ++ [(k, Json.arr el pr)]) = true := by
        simp [propFreeEntries_append, hpfd, propFreeEntries, hpfw]
      have hlf : flattenLeaves ((k, Json.arr el pr) :: rest) =
          ([k], Json.arr el pr) :: flattenLeaves rest := by
        simp [flattenLeaves]
      rw [hlf]
      show objSet (ctxWrap ctx done) (ctxKeys ctx ++ [k]) (Json.arr el pr) >>=
        (fun a => List.foldlM
          (fun a (e : List String × Json) => objSet a (ctxKeys ctx ++ e.1) e.2)
          a (flattenLeaves rest)) = _
      rw [objSet_ctx_eq (Json.arr el pr) hok hpfd (by simp)]
      rw [show setParts (.obj done) [k] (Json.arr el pr) =
        some (.obj (setEntry done k (Json.arr el pr))) from by simp [setParts, Json.propSet]]
      rw [setEntry_of_none hdk]
      show List.foldlM
          (fun a (e : List String × Json) => objSet a (ctxKeys ctx ++ e.1) e.2)
          (ctxWrap ctx (done ++ [(k, Json.arr el pr)])) (flattenLeaves rest) = _
      rw [rebuild_core rest ctx (done ++ [(k, Json.arr el pr)]) hrest hnrest hok hpfd'
        (hdisj' (Json.arr el pr))]
      simp
termination_by es _ _ _ _ _ _ _ => sizeOf es
decreasing_by all_goals (simp_wf; try omega)

theorem setValueByPath_eq_objSet (a : List (String × Json)) (p : String) (v : Json) :
    setValueByPath a p v = objSet a (splitDot p) v := rfl

theorem rebuildDoc_eq (es : List (String × Json)) (hwf : wfEntries es = true)
    (hne : neEntries es = true) : rebuildDoc es = some es := by
  unfold rebuildDoc
  have hkeys : flattenKeys es "" =
      (flattenLeaves es).map (fun e => e.1.foldl joinKey "") := by
    rw [flattenKeys_eq_comps es "", ← flattenLeaves_fst es, List.map_map]
    rfl
  rw [hkeys, foldlM_map_opt]
  rw [foldlM_congr_mem (flattenLeaves es) _
    (fun acc (e : List String × Json) => objSet acc e.1 e.2) []
    (by
      intro e hmem acc
      have hfst : e.1 ∈ flattenComps es := by
        rw [← flattenLeaves_fst]
        exact List.mem_map_of_mem _ hmem
      obtain ⟨hcne, hfacts⟩ := wf_chain es e.1 hwf hfst
      have hjoin : e.1.foldl joinKey "" = dotJoin e.1 :=
        foldl_joinKey_empty e.1 hcne (fun s hs => (hfacts s hs).1)
      have hsplit : splitDot (dotJoin e.1) = e.1 :=
        splitDot_dotJoin e.1 hcne (fun s hs => (hfacts s hs).2)
      have hval : getValueByPath es (dotJoin e.1) = some e.2 := by
        unfold getValueByPath
        rw [hsplit]
        exact flattenLeaves_value es hwf e hmem
      show (match getValueByPath es (e.1.foldl joinKey "") with
        | some v => setValueByPath acc (e.1.foldl joinKey "") v
        | none => none) = objSet acc e.1 e.2
      rw [hjoin, hval]
      show setValueByPath acc (dotJoin e.1) e.2 = objSet acc e.1 e.2
      rw [setValueByPath_eq_objSet, hsplit])]
  have := rebuild_core es [] [] hwf hne rfl (by simp [propFreeEntries])
    (fun kk _ => by simp [lookupEntry])
  simp only [ctxKeys, ctxWrap, List.map_nil, List.nil_append] at this
  rw [show (fun acc (e : List String × Json) => objSet acc e.1 e.2) =
    (fun a (e : List String × Json) => objSet a ([] ++ e.1) e.2) from by
      funext a e; simp]
  exact this

/-- C3 (counterexample): `D = {"a": {}}` has no array or scalar sitting
mid-path (it has no leaves at all), yet re-deriving a document from the
leaves of `buildTree(flatten(D))` by repeated `set` on `{}` yields the
empty object, which is not deep-equal to `D`. -/
theorem rebuild_fails_on_empty_object :
    noFalseLeaves [("a", Json.obj [])] = true ∧
    rebuildDoc [("a", Json.obj [])] = some [] ∧
    rebuildDoc [("a", Json.obj [])] ≠ some [("a", Json.obj [])] := by
  refine ⟨?_, ?_, ?_⟩
  · simp [noFalseLeaves, flattenKeys]
  · simp [rebuildDoc, flattenKeys]
  · simp [rebuildDoc, flattenKeys]

/-- C3 (amended): for every document whose keys are non-empty, dot-free
and unique at each object level (arrays plain JSON) and which contains
no empty-object value, the tree built from `flatten(D)` has leaf paths
exactly `flatten(D)` in order, and re-deriving a document from those
leaves via repeated `set` on the empty object (values taken from `D` via
`get`) reproduces `D` exactly, key order included. -/
theorem buildTree_flatten_rebuild_roundtrip :
    ∀ es : List (String × Json), wfEntries es = true → neEntries es = true →
      leafPaths (buildKeyTree (flattenKeys es "")) = flattenKeys es "" ∧
      rebuildDoc es = some es := by
  intro es hwf hne
  constructor
  · rw [buildKeyTree_eq_docForest hwf hne, leafPaths_docForest]
  · exact rebuildDoc_eq es hwf hne

/-- C3 (witness): the round trip on the concrete document
`{"a": {"b": "x"}, "c": 1}`. -/
theorem buildTree_flatten_rebuild_roundtrip_witness :
    leafPaths (buildKeyTree (flattenKeys
        [("a", Json.obj [("b", Json.str "x")]), ("c", Json.num 1)] "")) =
      flattenKeys [("a", Json.obj [("b", Json.str "x")]), ("c", Json.num 1)] "" ∧
    rebuildDoc [("a", Json.obj [("b", Json.str "x")]), ("c", Json.num 1)] =
      some [("a", Json.obj [("b", Json.str "x")]), ("c", Json.num 1)] := by
  exact buildTree_flatten_rebuild_roundtrip
    [("a", Json.obj [("b", Json.str "x")]), ("c", Json.num 1)]
    (by simp [wfEntries, dotFree, entryKeys])
    (by simp [neEntries])
